import Mathlib

/-!
Shallow embedding of the Dynamic_Count_Labeling road-network index
(src/road_network.cpp, src/util.h, src/index.cpp) in Lean 4.

Machine integers are modelled as `Nat` with explicit reductions modulo
`2^32` (`distance_t`) and `2^16` (path counts) at the operations where
C++ unsigned arithmetic can wrap.  `distance_t infinity = UINT32_MAX`.

The repository header `road_network.h` is not part of the sources; the
field layout of `Neighbor`, `Node`, `CutIndex`, `CHNode` and the class
interfaces are modelled from the spec (section 3 DATA MODEL) and from
their uses in `road_network.cpp`.
-/

namespace RoadNetwork

/-- 2^32, the modulus of `distance_t` arithmetic. -/
def W32 : Nat := 4294967296

/-- 2^16, the modulus of path-count (`uint16_t`) arithmetic. -/
def W16 : Nat := 65536

/-- distance sentinel: `infinity = UINT32_MAX`. -/
def infinity : Nat := 4294967295

/-- `uint32_t` addition (wraps modulo 2^32). -/
def add32 (a b : Nat) : Nat := (a + b) % W32

/-- `uint32_t` subtraction (wraps modulo 2^32). -/
def sub32 (a b : Nat) : Nat := (a % W32 + (W32 - b % W32)) % W32

/-- `uint16_t` multiplication (wraps modulo 2^16). -/
def mul16 (a b : Nat) : Nat := (a * b) % W16

/-- `uint16_t` addition (wraps modulo 2^16). -/
def add16 (a b : Nat) : Nat := (a + b) % W16

/-- count-trailing-zeros helper, structural on a fuel bound (64 suffices
for the 64-bit values `__builtin_ctzll` is applied to). -/
def ctzAux : Nat → Nat → Nat
  | 0, _ => 0
  | fuel + 1, n => if n % 2 = 1 then 0 else ctzAux fuel (n / 2) + 1

/-- `__builtin_ctzll` on a nonzero 64-bit value. -/
def ctz64 (n : Nat) : Nat := ctzAux 64 n

namespace PBV

/-- `PBV::partition`: the cut level is stored in the lowest 6 bits. -/
def partition (bv : Nat) : Nat := bv / 64

/-- `PBV::cut_level`: lowest 6 bits. -/
def cut_level (bv : Nat) : Nat := bv % 64

/-- `PBV::lca_level`: lowest level at which partitions differ. -/
def lca_level (bv1 bv2 : Nat) : Nat :=
  let l := min (cut_level bv1) (cut_level bv2)
  let p1 := partition bv1
  let p2 := partition bv2
  if p1 ≠ p2 then
    let diff_level := ctz64 (Nat.xor p1 p2)
    if diff_level < l then diff_level else l
  else l

/-- `PBV::from`: `(bits << (64 - length) >> (58 - length)) | length`
on a 64-bit integer, for `0 < length ≤ 58`; returns 0 for length 0. -/
def from_bits (bits length : Nat) : Nat :=
  if length = 0 then 0
  else (bits * 2 ^ (64 - length) % 2 ^ 64) / 2 ^ (58 - length) * 64 + length

end PBV

/-- `get_offset(dist_index, cut_level)`: prefix-sum offset of the labels
of cut level `cl`. -/
def get_offset (di : List Nat) (cl : Nat) : Nat :=
  if cl = 0 then 0 else di.getD (cl - 1) 0

/-- Modelled from the spec: `FlatCutIndex` is a packed block
`[u64 PBV][u16 dist_index[cut_level+1]][distance_t distances[]][u16 paths[]]`
(spec section 3); here the four components are held unpacked.  Reads past
the stored arrays (undefined behaviour in C++) are modelled by `getD`
with default 0. -/
structure FlatCutIndex where
  pbv : Nat
  distIndex : List Nat
  distances : List Nat
  paths : List Nat
deriving DecidableEq, Repr

namespace FlatCutIndex

/-- `FlatCutIndex::cut_level()`. -/
def cutLevel (a : FlatCutIndex) : Nat := PBV.cut_level a.pbv

/-- read `dist_index()[k]`. -/
def di (a : FlatCutIndex) (k : Nat) : Nat := a.distIndex.getD k 0

/-- read `distances()[i]`. -/
def d (a : FlatCutIndex) (i : Nat) : Nat := a.distances.getD i 0

/-- read `paths()[i]`. -/
def p (a : FlatCutIndex) (i : Nat) : Nat := a.paths.getD i 0

end FlatCutIndex

/-- `ContractionIndex::get_cut_level_distance(a, b, cut_level)`: minimum
2-hop distance over the level-`cl` label block; the scan starts at the
per-side offsets `dist_index[cl-1]` and runs for
`min(a.dist_index[cl] - a_offset, b.dist_index[cl] - b_offset)` steps. -/
def get_cut_level_distance (a b : FlatCutIndex) (cl : Nat) : Nat :=
  let aOff := get_offset a.distIndex cl
  let bOff := get_offset b.distIndex cl
  let len := min (a.di cl - aOff) (b.di cl - bOff)
  (List.range len).foldl
    (fun m k => min m (add32 (a.d (aOff + k)) (b.d (bOff + k)))) infinity

/-- `ContractionIndex::get_distance(FlatCutIndex, FlatCutIndex)` in the
default build (`NO_SHORTCUTS` not defined): the meet-level block scan. -/
def fci_get_distance (a b : FlatCutIndex) : Nat :=
  get_cut_level_distance a b (PBV.lca_level a.pbv b.pbv)

/-- `ContractionIndex::get_paths(FlatCutIndex, FlatCutIndex)`: scan the
whole parallel prefix `[0 .. min(a.dist_index[l], b.dist_index[l]))`,
tracking the running minimum and the accumulated path count. -/
def fci_get_paths (a b : FlatCutIndex) : Nat :=
  let cl := PBV.lca_level a.pbv b.pbv
  let len := min (a.di cl) (b.di cl)
  ((List.range len).foldl
    (fun st k =>
      let dk := add32 (a.d k) (b.d k)
      let ck := mul16 (a.p k) (b.p k)
      if dk < st.1 then (dk, ck)
      else if dk = st.1 then (st.1, add16 st.2 ck)
      else st)
    (infinity, 0)).2

/-- Modelled from the spec: the claim C4 reading of the query, "min over
the parallel range `[0 .. dist_index[l])` of `a.distances[i] +
b.distances[i]`" (spec section 4.4), with the shared upper bound taken as
`min(a.dist_index[l], b.dist_index[l])` as in the path-count scan. -/
def spec_parallel_range_min (a b : FlatCutIndex) : Nat :=
  let cl := PBV.lca_level a.pbv b.pbv
  let len := min (a.di cl) (b.di cl)
  (List.range len).foldl (fun m k => min m (add32 (a.d k) (b.d k))) infinity

/-- Modelled from the spec: `ContractionLabel` holds a (shared) reference
to a `FlatCutIndex` block, here a block id into a block store, plus
`distance_offset` and `parent` (spec section 3). `parent = 0` (`NO_NODE`)
marks a non-contracted vertex. -/
structure ContractionLabel where
  blockId : Nat
  distance_offset : Nat
  parent : Nat
deriving DecidableEq, Repr

/-- `ContractionIndex`: per-vertex labels plus the store of
`FlatCutIndex` heap blocks; C++ pointer equality of `cut_index.data`
becomes equality of `blockId`. -/
structure ContractionIndex where
  labels : Nat → ContractionLabel
  blocks : Nat → FlatCutIndex

/-- the lowest-common-ancestor walk of `ContractionIndex::get_distance`
(`while (v_anc != w_anc)`), returning the offset of the common ancestor;
fuel-indexed because the C++ loop terminates only on well-formed parent
chains (whose offsets strictly decrease). -/
def lcaWalk (labels : Nat → ContractionLabel) :
    Nat → Nat → Nat → Option Nat
  | 0, _, _ => none
  | fuel + 1, vAnc, wAnc =>
    if vAnc = wAnc then some (labels vAnc).distance_offset
    else
      let cv := labels vAnc
      let cw := labels wAnc
      if cv.distance_offset < cw.distance_offset then
        lcaWalk labels fuel vAnc cw.parent
      else if cw.distance_offset < cv.distance_offset then
        lcaWalk labels fuel cv.parent wAnc
      else
        lcaWalk labels fuel cv.parent cw.parent

/-- `ContractionIndex::get_distance(NodeID, NodeID)`.  The LCA walk gets
fuel `cv.distance_offset + cw.distance_offset + 1`, which suffices as
each iteration strictly decreases the offset sum on well-formed chains;
fuel exhaustion (the C++ loop never terminating) is mapped to 0. -/
def ci_get_distance (ci : ContractionIndex) (v w : Nat) : Nat :=
  let cv := ci.labels v
  let cw := ci.labels w
  if cv.blockId = cw.blockId then
    if v = w then 0
    else if cv.distance_offset = 0 then cw.distance_offset
    else if cw.distance_offset = 0 then cv.distance_offset
    else if cv.parent = w then sub32 cv.distance_offset cw.distance_offset
    else if cw.parent = v then sub32 cw.distance_offset cv.distance_offset
    else
      match lcaWalk ci.labels (cv.distance_offset + cw.distance_offset + 1) v w with
      | some ancOff =>
          sub32 (add32 cv.distance_offset cw.distance_offset) (2 * ancOff % W32)
      | none => 0
  else
    add32 (add32 cv.distance_offset cw.distance_offset)
      (fci_get_distance (ci.blocks cv.blockId) (ci.blocks cw.blockId))

/-- `ContractionIndex::get_spc(NodeID, NodeID)`: 1 when both labels
reference the same `FlatCutIndex` block, otherwise the label scan. -/
def ci_get_spc (ci : ContractionIndex) (v w : Nat) : Nat :=
  let cv := ci.labels v
  let cw := ci.labels w
  if cv.blockId = cw.blockId then 1
  else fci_get_paths (ci.blocks cv.blockId) (ci.blocks cw.blockId)

/-- Modelled from the spec: `Neighbor` carries a node id, a distance and
(for shortcut-DAG edges) a 16-bit path count (spec section 3); graph
adjacency entries leave the path count at 0. -/
structure Neighbor where
  node : Nat
  distance : Nat
  path_count : Nat
deriving DecidableEq, Repr

/-- Modelled from the spec: a `Node` of the flat vertex table holds its
subgraph tag and its neighbor list (spec section 4.1). -/
structure Node where
  subgraph_id : Nat
  neighbors : List Neighbor
deriving DecidableEq, Repr

/-- the `Graph`: vertex table (as a total function; out-of-range C++
accesses are undefined behaviour), active node list, synthetic `s`/`t`
slots.  `sz` is the `node_count` used for sizing `node_data`. -/
structure Graph where
  subgraph_id : Nat
  sz : Nat
  node_data : Nat → Node
  nodes : List Nat
  s : Nat
  t : Nat

/-- `Graph::contains`: subgraph membership test. -/
def Graph.containsNode (g : Graph) (v : Nat) : Prop :=
  (g.node_data v).subgraph_id = g.subgraph_id

instance (g : Graph) (v : Nat) : Decidable (g.containsNode v) := by
  unfold Graph.containsNode; infer_instance

/-- `Graph::resize(node_count)`: slots `1..node_count` stamped with the
graph's subgraph id, slots `0`, `s = node_count+1`, `t = node_count+2`
unstamped; `nodes = [1..node_count]`. -/
def Graph.resize (g : Graph) (node_count : Nat) : Graph :=
  { subgraph_id := g.subgraph_id
    sz := node_count
    node_data := fun i =>
      if 1 ≤ i ∧ i ≤ node_count then ⟨g.subgraph_id, []⟩ else ⟨0, []⟩
    nodes := List.range' 1 node_count
    s := node_count + 1
    t := node_count + 2 }

/-- `Graph()` as used by the CLI binaries: a fresh nonzero subgraph id
and an empty vertex table. -/
def Graph.new : Graph :=
  Graph.resize ⟨1, 0, fun _ => ⟨0, []⟩, [], 1, 2⟩ 0

/-- the neighbor-list update of `Graph::add_edge` in one direction:
the first entry for `w` gets its distance lowered to the minimum (the
C++ loop breaks after the first match), otherwise `(w, distance)` is
appended. -/
def updNbList : List Neighbor → Nat → Nat → List Neighbor
  | [], w, dist => [⟨w, dist, 0⟩]
  | n :: t, w, dist =>
    if n.node = w then { n with distance := min n.distance dist } :: t
    else n :: updNbList t w dist

/-- one directed half of `Graph::add_edge`. -/
def addEdgeDir (g : Graph) (v w dist : Nat) : Graph :=
  { g with node_data := fun i =>
      if i = v then
        { g.node_data v with neighbors := updNbList (g.node_data v).neighbors w dist }
      else g.node_data i }

/-- `Graph::add_edge(v, w, distance, add_reverse)`. -/
def add_edge (g : Graph) (v w dist : Nat) (add_reverse : Bool) : Graph :=
  let g1 := addEdgeDir g v w dist
  if add_reverse then addEdgeDir g1 w v dist else g1

/-- `Graph::degree`: neighbors filtered by subgraph membership. -/
def Graph.degree (g : Graph) (v : Nat) : Nat :=
  ((g.node_data v).neighbors.filter (fun n => decide (g.containsNode n.node))).length

/-- `Graph::remove_isolated`: walk `nodes` in order, un-stamping each
vertex whose current degree is 0, then drop those vertices from
`nodes`. -/
def removeIsolated (g : Graph) : Graph :=
  let step := fun (acc : Graph × List Nat) (v : Nat) =>
    if acc.1.degree v = 0 then
      ({ acc.1 with node_data := fun i =>
            if i = v then { acc.1.node_data v with subgraph_id := 0 }
            else acc.1.node_data i },
        v :: acc.2)
    else acc
  let res := g.nodes.foldl step (g, [])
  { res.1 with nodes := g.nodes.filter (fun v => decide (¬ v ∈ res.2)) }

/-- one input line of the graph file, after `istream` extraction: a
numeric field is `none` when its extraction did not succeed — either
because its own conversion failed (C++11 then stores 0 and sets the
fail bit) or because the stream had already failed on an earlier field
(the variable is then left unmodified, keeping its previous value). -/
inductive GLine where
  | pline (n : Option Nat)
  | aline (v w d : Option Nat)
  | otherline
deriving DecidableEq, Repr

/-- `read_graph`'s line loop, threading the function-scope locals
`v, w, d` as a register triple `r` (they persist across lines; their
initial values are indeterminate).  On an `a` line the first field
whose conversion fails is stored as 0 and later fields keep their
previous (stale) register values; `Graph::add_edge` is then still
called, and its assertions (`v < node_data.size()`,
`w < node_data.size()`, `distance > 0`) abort the run when violated.
Lines with unknown ids are skipped.  A failed extraction that does not
abort ends the loop (fail bit). -/
def readLinesAux : List GLine → Graph → Nat × Nat × Nat → Except Unit Graph
  | [], g, _ => .ok g
  | GLine.otherline :: rest, g, r => readLinesAux rest g r
  | GLine.pline n :: rest, g, r =>
    if g.nodes ≠ [] then .error ()  -- assert(nodes.empty()) in resize
    else
      let g' := g.resize (n.getD 0)
      match n with
      | some k => readLinesAux rest g' (k, r.2.1, r.2.2)
      | none => .ok g'
  | GLine.aline v w d :: rest, g, r =>
    let v' := v.getD 0
    let w' := if v.isSome then w.getD 0 else r.2.1
    let d' := if v.isSome && w.isSome then d.getD 0 else r.2.2
    if v' < g.sz + 3 ∧ w' < g.sz + 3 ∧ 0 < d' then
      let g' := add_edge g v' w' d' true
      if v.isSome && w.isSome && d.isSome then readLinesAux rest g' (v', w', d')
      else .ok g'
    else .error ()

/-- `read_graph(g, in)` on a fresh graph, including the final
`remove_isolated`; `r0` is the (indeterminate) initial content of the
uninitialized locals `v, w, d`. -/
def read_graph (r0 : Nat × Nat × Nat) (lines : List GLine) : Except Unit Graph :=
  (readLinesAux lines Graph.new r0).map removeIsolated

/-! ### Shortcut DAG (`ContractionHierarchy`) and its construction -/

/-- pointwise update of a `Nat`-indexed store. -/
def fupd {α : Type} (f : Nat → α) (v : Nat) (x : α) : Nat → α :=
  fun i => if i = v then x else f i

/-- insertion into a list sorted by the boolean relation `le`. -/
def insertSorted {α : Type} (le : α → α → Bool) (x : α) : List α → List α
  | [] => [x]
  | y :: t => if le x y then x :: y :: t else y :: insertSorted le x t

/-- insertion sort; stands in for `std::sort` (whose order among
equivalent elements is unspecified). -/
def sortListBy {α : Type} (le : α → α → Bool) (l : List α) : List α :=
  l.foldr (insertSorted le) []

/-- the comparator `di_order1` of `create_sc_graph`: descending
`dist_index`, then ascending distance, then descending path count. -/
def di_order1 (di : Nat → Nat) (a b : Neighbor) : Bool :=
  if di b.node < di a.node then true
  else if di a.node = di b.node ∧ a.distance < b.distance then true
  else if di a.node = di b.node ∧ a.distance = b.distance ∧ b.path_count < a.path_count then true
  else false

/-- the comparator `di_order` (descending `dist_index` on node ids). -/
def di_order (di : Nat → Nat) (a b : Nat) : Bool := decide (di b < di a)

/-- tail of `util::make_set(v, comp)`: drop entries whose `node` equals
the last kept entry's `node` (the C++ scan compares against
`v[last_distinct]`). -/
def dedupByNodeGo (last : Neighbor) : List Neighbor → List Neighbor
  | [] => []
  | y :: t => if y.node = last.node then dedupByNodeGo last t
              else y :: dedupByNodeGo y t

/-- `util::make_set(v, comp)` after sorting: keep the first entry of
each run of equal `node` ids. -/
def dedupByNode : List Neighbor → List Neighbor
  | [] => []
  | x :: t => x :: dedupByNodeGo x t

/-- mutable state of `Graph::create_sc_graph`: per-vertex `CHNode` data
(`dist_index`, `up_neighbors`, `down_neighbors`; spec section 3, the
header being external) and the `ci[]` label arrays it fills. -/
structure ScState where
  di : Nat → Nat
  up : Nat → List Neighbor
  down : Nat → List Nat
  dist : Nat → List Nat
  paths : Nat → List Nat

/-- initialization loop of `create_sc_graph(ch, ci, closest)`: core
vertices (`closest[node].node == node`) get
`dist_index = ci[node].dist_index[cut_level] - 1` and label arrays of
that length filled with `(infinity, 0)`; contracted vertices get the
sentinel 65535.  Returns the state and `bottom_up_nodes`. -/
def scInit (g : Graph) (ciDi : Nat → List Nat) (ciCl : Nat → Nat)
    (closest : Nat → Nat) : ScState × List Nat :=
  g.nodes.foldl
    (fun acc node =>
      let st := acc.1
      if closest node = node then
        let d := (ciDi node).getD (ciCl node) 0 - 1
        ({ st with di := fupd st.di node d
                   dist := fupd st.dist node (List.replicate d infinity)
                   paths := fupd st.paths node (List.replicate d 0) },
         acc.2 ++ [node])
      else ({ st with di := fupd st.di node 65535 }, acc.2))
    (⟨fun _ => 0, fun _ => [], fun _ => [], fun _ => [], fun _ => []⟩, [])

/-- "initialize with upwards graph edges": every graph edge from `node`
to a core neighbor with strictly smaller `dist_index` becomes an
up-neighbor with path count 1 and seeds the label slot. -/
def scInitEdges (g : Graph) (closest : Nat → Nat) (bottomUp : List Nat)
    (st : ScState) : ScState :=
  bottomUp.foldl
    (fun st node =>
      (g.node_data node).neighbors.foldl
        (fun st n =>
          if closest n.node = n.node ∧ st.di n.node < st.di node then
            { st with
              up := fupd st.up node (st.up node ++ [⟨n.node, n.distance, 1⟩])
              dist := fupd st.dist node ((st.dist node).set (st.di n.node) n.distance)
              paths := fupd st.paths node ((st.paths node).set (st.di n.node) 1) }
          else st)
        st)
    st

/-- the inner `j` loop of the shortcut pass, pairing `x = up[i]` with
each later entry `y = up[j]`: a strictly better 2-hop distance replaces
the label slot and adds a DAG edge; an equal one adds the path counts
and also appends a DAG edge carrying the accumulated count.  The i-loop
runs over a snapshot of the deduplicated list: its additions only touch
vertices with strictly smaller `dist_index`, never `node` itself. -/
def scPairInner (x : Neighbor) (ys : List Neighbor) (st : ScState) : ScState :=
  ys.foldl
    (fun st y =>
      let weight := add32 x.distance y.distance
      let pc := mul16 x.path_count y.path_count
      let cur := (st.dist x.node).getD (st.di y.node) 0
      if weight < cur then
        { st with
          up := fupd st.up x.node (st.up x.node ++ [⟨y.node, weight, pc⟩])
          dist := fupd st.dist x.node ((st.dist x.node).set (st.di y.node) weight)
          paths := fupd st.paths x.node ((st.paths x.node).set (st.di y.node) pc) }
      else if weight = cur then
        let newPc := add16 ((st.paths x.node).getD (st.di y.node) 0) pc
        { st with
          paths := fupd st.paths x.node ((st.paths x.node).set (st.di y.node) newPc)
          up := fupd st.up x.node (st.up x.node ++ [⟨y.node, weight, newPc⟩]) }
      else st)
    st

/-- the double loop `for i, for j > i` over the deduplicated
up-neighbor list. -/
def scPairLoop : List Neighbor → ScState → ScState
  | [], st => st
  | x :: rest, st => scPairLoop rest (scPairInner x rest st)

/-- processing of one vertex in the bottom-up shortcut pass:
`make_set(up, di_order1)`, the pair loop, and the down-neighbor
back-references. -/
def scProcessNode (node : Nat) (st : ScState) : ScState :=
  let ups := dedupByNode (sortListBy (fun a b => ! di_order1 st.di b a) (st.up node))
  let st1 := { st with up := fupd st.up node ups }
  let st2 := scPairLoop ups st1
  ups.foldl
    (fun st upn => { st with down := fupd st.down upn.node (st.down upn.node ++ [node]) })
    st2

/-- the final label-propagation pass ("compute DHCL distances") for one
vertex, taken in ascending `dist_index` order: sort `down_neighbors`,
fold every up-neighbor's ancestor slots into this vertex's labels, then
append the self slot `(0, 1)`. -/
def scPhase2Node (node : Nat) (st : ScState) : ScState :=
  let st := { st with down := fupd st.down node (sortListBy (fun a b => decide (a ≤ b)) (st.down node)) }
  let st := (st.up node).foldl
    (fun st n =>
      (List.range (st.di n.node)).foldl
        (fun st anc =>
          let dist := add32 n.distance ((st.dist n.node).getD anc 0)
          let pc := mul16 n.path_count ((st.paths n.node).getD anc 0)
          let cur := (st.dist node).getD anc 0
          if dist < cur then
            { st with dist := fupd st.dist node ((st.dist node).set anc dist)
                      paths := fupd st.paths node ((st.paths node).set anc pc) }
          else if dist = cur then
            { st with paths := fupd st.paths node
                        ((st.paths node).set anc (add16 ((st.paths node).getD anc 0) pc)) }
          else st)
        st)
    st
  { st with dist := fupd st.dist node (st.dist node ++ [0])
            paths := fupd st.paths node (st.paths node ++ [1]) }

/-- `Graph::create_sc_graph(ch, ci, closest)` (single-threaded build):
initialization, upward graph edges, bottom-up shortcut insertion in
descending `dist_index` order, then the reverse-order label
propagation. -/
def create_sc_graph (g : Graph) (ciDi : Nat → List Nat) (ciCl : Nat → Nat)
    (closest : Nat → Nat) : ScState :=
  let ini := scInit g ciDi ciCl closest
  let st0 := scInitEdges g closest ini.2 ini.1
  let bu := sortListBy (fun a b => ! di_order st0.di b a) ini.2
  let st1 := bu.foldl (fun st node => scProcessNode node st) st0
  bu.reverse.foldl (fun st node => scPhase2Node node st) st1

/-! ### Dynamic maintenance: `util::min_bucket_queue`, GS and DCL -/

/-- `util::min_bucket_queue<T>`: a vector of buckets plus the index of
the minimum non-empty bucket. -/
structure MBQueue (α : Type) where
  buckets : List (List α)
  minBucket : Nat

namespace MBQueue

/-- the empty queue (`min_bucket = 0`, no buckets). -/
def emptyQ {α : Type} : MBQueue α := ⟨[], 0⟩

/-- `min_bucket_queue::empty()`: `min_bucket >= buckets.size()`. -/
def isEmpty {α : Type} (q : MBQueue α) : Bool :=
  decide (q.buckets.length ≤ q.minBucket)

/-- `min_bucket_queue::push(value, bucket)`. -/
def push {α : Type} (q : MBQueue α) (value : α) (bucket : Nat) : MBQueue α :=
  let mb := if q.buckets.length ≤ q.minBucket ∨ bucket < q.minBucket
            then bucket else q.minBucket
  let bs := if q.buckets.length ≤ bucket
            then q.buckets ++ List.replicate (bucket + 1 - q.buckets.length) []
            else q.buckets
  ⟨bs.set bucket (bs.getD bucket [] ++ [value]), mb⟩

/-- advance `min_bucket` past empty buckets (the `while` in `pop`),
fuel-bounded by the number of buckets. -/
def advanceFrom {α : Type} (bs : List (List α)) : Nat → Nat → Nat
  | 0, mb => mb
  | fuel + 1, mb =>
    if mb < bs.length ∧ (bs.getD mb []).isEmpty then advanceFrom bs fuel (mb + 1)
    else mb

/-- `min_bucket_queue::pop()`: take the back of the minimum bucket and
skip empty buckets; returns the element, the bucket key it came from,
and the remaining queue (`none` when the queue is empty — the C++
callers only pop after checking `empty()`). -/
def popQ {α : Type} (q : MBQueue α) : Option (α × Nat × MBQueue α) :=
  if q.buckets.length ≤ q.minBucket then none
  else
    let b := q.buckets.getD q.minBucket []
    match b.getLast? with
    | none => none
    | some top =>
      let bs := q.buckets.set q.minBucket b.dropLast
      some (top, q.minBucket, ⟨bs, advanceFrom bs (bs.length + 1) q.minBucket⟩)

end MBQueue

/-- the `ContractionHierarchy` as touched by maintenance: `dist_index`,
`up_neighbors` and `down_neighbors` per vertex. -/
structure CH where
  di : Nat → Nat
  up : Nat → List Neighbor
  down : Nat → List Nat

/-- extract the `CH` part of a `create_sc_graph` state. -/
def ScState.toCH (st : ScState) : CH := ⟨st.di, st.up, st.down⟩

/-- `Graph::UpNeighbor(ch, v, w)` as a read: the first up-neighbor entry
of `v` for `w` (the C++ function returns a dangling reference when no
entry exists — undefined behaviour — modelled by a zero default). -/
def upFind (ch : CH) (v w : Nat) : Neighbor :=
  ((ch.up v).find? (fun n => n.node = w)).getD ⟨0, 0, 0⟩

/-- update of the first entry for `w` in a neighbor list. -/
def updFirst (f : Neighbor → Neighbor) (w : Nat) : List Neighbor → List Neighbor
  | [] => []
  | n :: t => if n.node = w then f n :: t else n :: updFirst f w t

/-- `Graph::UpNeighbor(ch, v, w)` as a write through the reference. -/
def upSet (ch : CH) (v w : Nat) (f : Neighbor → Neighbor) : CH :=
  { ch with up := fupd ch.up v (updFirst f w (ch.up v)) }

/-- `DCHSearchNode`: the priority-queue entries of GS_Dec / GS_Inc,
ordered by `dist_index` (the `std::priority_queue` pops a maximal one). -/
structure DCHNode where
  dist_index : Nat
  v : Nat
  w : Nat
  distance : Nat
  path_count : Nat
deriving DecidableEq, Repr

/-- pop an element with maximal `dist_index` (first such element; the
C++ heap's choice among equal keys is unspecified). -/
def pqPopMax : List DCHNode → Option (DCHNode × List DCHNode)
  | [] => none
  | x :: t =>
    match pqPopMax t with
    | none => some (x, [])
    | some (m, rest) =>
      if x.dist_index < m.dist_index then some (m, x :: rest) else some (x, t)

/-- an update record `((old_weight, new_weight), (a, b))`. -/
abbrev Upd : Type := (Nat × Nat) × (Nat × Nat)

/-- a changed shortcut edge `((v, w), (distance, path_count))`. -/
abbrev CEdge : Type := (Nat × Nat) × (Nat × Nat)

/-- strict lexicographic `operator<` on the nested pairs of `CEdge`,
used by `std::sort` in `merge_edges`. -/
def ceLt (a b : CEdge) : Bool :=
  decide (a.1.1 < b.1.1 ∨ (a.1.1 = b.1.1 ∧ (a.1.2 < b.1.2 ∨ (a.1.2 = b.1.2 ∧
    (a.2.1 < b.2.1 ∨ (a.2.1 = b.2.1 ∧ a.2.2 < b.2.2))))))

/-- the combining scan of `Graph::merge_edges` over the sorted vector:
equal edges keep the smaller distance, or add the 16-bit path counts on
ties. -/
def mergeAdjGo (last : CEdge) : List CEdge → List CEdge
  | [] => [last]
  | y :: t =>
    if y.1 = last.1 then
      let last' :=
        if y.2.1 < last.2.1 then (last.1, y.2)
        else if y.2.1 = last.2.1 then (last.1, (last.2.1, add16 last.2.2 y.2.2))
        else last
      mergeAdjGo last' t
    else last :: mergeAdjGo y t

/-- `Graph::merge_edges`. -/
def merge_edges (v : List CEdge) : List CEdge :=
  if v.length < 2 then v
  else
    match sortListBy (fun a b => ! ceLt b a) v with
    | [] => []
    | x :: t => mergeAdjGo x t

/-- the initial queue of `GS_Dec`: an update `(old, new, a, b)` is
enqueued at the higher endpoint's `dist_index` when the current shortcut
distance is at least the new weight. -/
def gsDecInit (ch : CH) (updates : List Upd) : List DCHNode :=
  updates.foldl
    (fun q iter =>
      let p := if ch.di iter.2.1 < ch.di iter.2.2
               then (iter.2.2, iter.2.1) else (iter.2.1, iter.2.2)
      if iter.1.2 ≤ (upFind ch p.1 p.2).distance then
        q ++ [⟨ch.di p.1, p.1, p.2, iter.1.2, 1⟩]
      else q)
    []

/-- main loop of `Graph::GS_Dec`, fuel-bounded (the C++ loop terminates
because shortcut distances strictly decrease): apply the popped change
to the shortcut edge (replace on strictly smaller distance, add path
counts on equal, skip otherwise), relax against the up-neighbors of
`v`, and record the change in `C`. -/
def gsDecLoop : Nat → CH → List DCHNode → List CEdge → CH × List CEdge
  | 0, ch, _, C => (ch, C)
  | fuel + 1, ch, q, C =>
    match pqPopMax q with
    | none => (ch, C)
    | some (next, q') =>
      let x := upFind ch next.v next.w
      if next.distance < x.distance ∨ next.distance = x.distance then
        let ch' :=
          if next.distance < x.distance then
            upSet ch next.v next.w
              (fun n => { n with distance := next.distance, path_count := next.path_count })
          else
            upSet ch next.v next.w
              (fun n => { n with path_count := add16 n.path_count next.path_count })
        let q2 := (ch'.up next.v).foldl
          (fun q n =>
            if n.node ≠ next.w then
              let dist := add32 next.distance n.distance
              let pc := mul16 next.path_count n.path_count
              let p := if ch'.di next.w < ch'.di n.node
                       then (n.node, next.w) else (next.w, n.node)
              if dist ≤ (upFind ch' p.1 p.2).distance then
                q ++ [⟨ch'.di p.1, p.1, p.2, dist, pc⟩]
              else q
            else q)
          q'
        gsDecLoop fuel ch' q2
          (C ++ [((next.v, next.w), (next.distance, next.path_count))])
      else gsDecLoop fuel ch q' C

/-- `Graph::GS_Dec(ch, updates, C)`. -/
def GS_Dec (fuel : Nat) (ch : CH) (updates : List Upd) : CH × List CEdge :=
  let res := gsDecLoop fuel ch (gsDecInit ch updates) []
  (res.1, merge_edges res.2)

/-- sorted-list intersection by the two-pointer scan of `GS_Inc` over
`down_neighbors`. -/
def commonDown : List Nat → List Nat → List Nat
  | [], _ => []
  | _ :: _, [] => []
  | a :: t1, b :: t2 =>
    if a < b then commonDown t1 (b :: t2)
    else if b < a then commonDown (a :: t1) t2
    else a :: commonDown t1 t2
termination_by l1 l2 => l1.length + l2.length

/-- the recomputation branch of `GS_Inc`: reset the edge to the
underlying graph edge (distance only; the path count is reset to 1) and
fold the 2-hop distances through all common down-neighbors. -/
def gsIncRecompute (g : Graph) (ch : CH) (v w : Nat) : Nat × Nat :=
  let base :=
    (((g.node_data v).neighbors.find? (fun n => n.node = w)).map (·.distance)).getD infinity
  (commonDown (ch.down v) (ch.down w)).foldl
    (fun st a =>
      let av := upFind ch a v
      let aw := upFind ch a w
      let dist := add32 av.distance aw.distance
      let pc := mul16 av.path_count aw.path_count
      if dist < st.1 then (dist, pc)
      else if dist = st.1 then (st.1, add16 st.2 pc)
      else st)
    (base, 1)

/-- the initial queue of `GS_Inc`: an update is enqueued when the
current shortcut distance equals the old weight. -/
def gsIncInit (ch : CH) (updates : List Upd) : List DCHNode :=
  updates.foldl
    (fun q iter =>
      let p := if ch.di iter.2.1 < ch.di iter.2.2
               then (iter.2.2, iter.2.1) else (iter.2.1, iter.2.2)
      if (upFind ch p.1 p.2).distance = iter.1.1 then
        q ++ [⟨ch.di p.1, p.1, p.2, iter.1.1, 1⟩]
      else q)
    []

/-- main loop of `Graph::GS_Inc`, fuel-bounded: first relax against the
up-neighbors (enqueueing edges whose current distance equals the
invalidated 2-hop distance), then either subtract the un-counted paths
or recompute the edge from the graph edge and the common
down-neighbors; the change list records the popped (old) distance. -/
def gsIncLoop (g : Graph) :
    Nat → CH → List DCHNode → List CEdge → CH × List CEdge
  | 0, ch, _, C => (ch, C)
  | fuel + 1, ch, q, C =>
    match pqPopMax q with
    | none => (ch, C)
    | some (next, q') =>
      let q2 := (ch.up next.v).foldl
        (fun q n =>
          if n.node ≠ next.w then
            let dist := add32 next.distance n.distance
            let pc := mul16 next.path_count n.path_count
            let p := if ch.di next.w < ch.di n.node
                     then (n.node, next.w) else (next.w, n.node)
            if (upFind ch p.1 p.2).distance = dist then
              q ++ [⟨ch.di p.1, p.1, p.2, dist, pc⟩]
            else q
          else q)
        q'
      let x := upFind ch next.v next.w
      let ch' :=
        if next.path_count < x.path_count then
          upSet ch next.v next.w
            (fun n => { n with path_count := n.path_count - next.path_count })
        else
          let r := gsIncRecompute g ch next.v next.w
          upSet ch next.v next.w
            (fun n => { n with distance := r.1, path_count := r.2 })
      gsIncLoop g fuel ch' q2
        (C ++ [((next.v, next.w), (next.distance, next.path_count))])

/-- `Graph::GS_Inc(ch, updates, C)`. -/
def GS_Inc (g : Graph) (fuel : Nat) (ch : CH) (updates : List Upd) :
    CH × List CEdge :=
  let res := gsIncLoop g fuel ch (gsIncInit ch updates) []
  (res.1, merge_edges res.2)

/-- `ICHSearchNode`: a pending label update `(v, i, distance,
path_count)` of the DCL phases. -/
structure ICHNode where
  v : Nat
  i : Nat
  distance : Nat
  path_count : Nat
deriving DecidableEq, Repr

/-- update the `FlatCutIndex` block referenced by vertex `v`'s label
(shared-block mutation through `get_contraction_label(v).cut_index`). -/
def ciUpdBlock (ci : ContractionIndex) (v : Nat)
    (f : FlatCutIndex → FlatCutIndex) : ContractionIndex :=
  { ci with blocks := fupd ci.blocks (ci.labels v).blockId (f (ci.blocks (ci.labels v).blockId)) }

/-- the block referenced by vertex `v`'s label. -/
def ciBlock (ci : ContractionIndex) (v : Nat) : FlatCutIndex :=
  ci.blocks (ci.labels v).blockId

/-- the ancestor phase of `DCL_Dec`: for each changed edge `(v, w)` of
`C` whose new distance is at most `ci[v].distances[dist_index(w)]`,
enqueue candidate updates for every slot `i ≤ dist_index(w)` at bucket
key `dist_index(v)`. -/
def dclDecInitQ (ch : CH) (ci : ContractionIndex) (C : List CEdge) :
    MBQueue ICHNode :=
  C.foldl
    (fun q iter =>
      let a := ciBlock ci iter.1.1
      if iter.2.1 ≤ a.d (ch.di iter.1.2) then
        let b := ciBlock ci iter.1.2
        (List.range (ch.di iter.1.2 + 1)).foldl
          (fun q i =>
            let dist := add32 iter.2.1 (b.d i)
            if dist ≤ a.d i then
              q.push ⟨iter.1.1, i, dist, mul16 iter.2.2 (b.p i)⟩ (ch.di iter.1.1)
            else q)
          q
      else q)
    MBQueue.emptyQ

/-- the descendant phase of `DCL_Dec`, fuel-bounded: pop the minimum
bucket, apply the min / tie-add rule to label slot `i` of `v`, and
enqueue candidates for all down-neighbors; also records the bucket key
of every dequeue. -/
def dclDecLoop (ch : CH) :
    Nat → ContractionIndex → MBQueue ICHNode → List Nat →
    ContractionIndex × List Nat
  | 0, ci, _, tr => (ci, tr)
  | fuel + 1, ci, q, tr =>
    match q.popQ with
    | none => (ci, tr)
    | some (next, key, q') =>
      let tr' := tr ++ [key]
      let cv := ciBlock ci next.v
      if next.distance < cv.d next.i ∨ cv.d next.i = next.distance then
        let ci' :=
          if next.distance < cv.d next.i then
            ciUpdBlock ci next.v (fun b =>
              { b with distances := b.distances.set next.i next.distance
                       paths := b.paths.set next.i next.path_count })
          else
            ciUpdBlock ci next.v (fun b =>
              { b with paths := b.paths.set next.i (add16 (b.p next.i) next.path_count) })
        let q2 := (ch.down next.v).foldl
          (fun q u =>
            let x := upFind ch u next.v
            let dist := add32 x.distance next.distance
            let cu := ciBlock ci' u
            if dist ≤ cu.d next.i then
              q.push ⟨u, next.i, dist, mul16 x.path_count next.path_count⟩ (ch.di u)
            else q)
          q'
        dclDecLoop ch fuel ci' q2 tr'
      else dclDecLoop ch fuel ci q' tr'

/-- `Graph::DCL_Dec(ch, ci, updates)`: GS_Dec followed by the label
repair; returns the repaired hierarchy and index together with the
sequence of bucket keys dequeued by the label phase. -/
def DCL_Dec (fuel : Nat) (ch : CH) (ci : ContractionIndex)
    (updates : List Upd) : CH × ContractionIndex × List Nat :=
  let r := GS_Dec fuel ch updates
  let lr := dclDecLoop r.1 fuel ci (dclDecInitQ r.1 ci r.2) []
  (r.1, lr.1, lr.2)

/-- the ancestor phase of `DCL_Inc`: enqueue slots whose stored 2-hop
distance equals the invalidated one. -/
def dclIncInitQ (ch : CH) (ci : ContractionIndex) (C : List CEdge) :
    MBQueue ICHNode :=
  C.foldl
    (fun q iter =>
      let a := ciBlock ci iter.1.1
      if iter.2.1 = a.d (ch.di iter.1.2) then
        let b := ciBlock ci iter.1.2
        (List.range (ch.di iter.1.2 + 1)).foldl
          (fun q i =>
            let dist := add32 iter.2.1 (b.d i)
            let pc := mul16 iter.2.2 (b.p i)
            if dist = a.d i then
              q.push ⟨iter.1.1, i, dist, pc⟩ (ch.di iter.1.1)
            else q)
          q
      else q)
    MBQueue.emptyQ

/-- the descendant phase of `DCL_Inc`, fuel-bounded: enqueue matching
down-neighbor slots, then subtract the un-counted paths, or recompute
slot `i` from scratch over the up-neighbors with `dist_index ≥ i`
(which reads other vertices' blocks; vertices of the shortcut DAG own
distinct blocks). -/
def dclIncLoop (ch : CH) :
    Nat → ContractionIndex → MBQueue ICHNode → ContractionIndex
  | 0, ci, _ => ci
  | fuel + 1, ci, q =>
    match q.popQ with
    | none => ci
    | some (next, _, q') =>
      let cv := ciBlock ci next.v
      let q2 := (ch.down next.v).foldl
        (fun q u =>
          let x := upFind ch u next.v
          let cu := ciBlock ci u
          let dist := add32 x.distance (cv.d next.i)
          let pc := mul16 x.path_count next.path_count
          if dist = cu.d next.i then
            q.push ⟨u, next.i, dist, pc⟩ (ch.di u)
          else q)
        q'
      let ci' :=
        if next.path_count < cv.p next.i then
          ciUpdBlock ci next.v (fun b =>
            { b with paths := b.paths.set next.i (b.p next.i - next.path_count) })
        else
          let r := (ch.up next.v).foldl
            (fun st u =>
              if next.i ≤ ch.di u.node then
                let x := upFind ch next.v u.node
                let cu := ciBlock ci u.node
                let dist := add32 x.distance (cu.d next.i)
                let pc := mul16 x.path_count (cu.p next.i)
                if dist < st.1 then (dist, pc)
                else if dist = st.1 then (st.1, add16 st.2 pc)
                else st
              else st)
            (infinity, cv.p next.i)
          ciUpdBlock ci next.v (fun b =>
            { b with distances := b.distances.set next.i r.1
                     paths := b.paths.set next.i r.2 })
      dclIncLoop ch fuel ci' q2

/-- `Graph::DCL_Inc(ch, ci, updates)`: GS_Inc followed by the label
repair. -/
def DCL_Inc (g : Graph) (fuel : Nat) (ch : CH) (ci : ContractionIndex)
    (updates : List Upd) : CH × ContractionIndex :=
  let r := GS_Inc g fuel ch updates
  (r.1, dclIncLoop r.1 fuel ci (dclIncInitQ r.1 ci r.2))

/-! ### Derived observations and concrete instances used by the claims -/

/-- number of entries for `y` in `x`'s neighbor list. -/
def countNb (g : Graph) (x y : Nat) : Nat :=
  ((g.node_data x).neighbors.filter (fun n => n.node = y)).length

/-- stored weight of the first entry for `y` in `x`'s neighbor list. -/
def weightNb (g : Graph) (x y : Nat) : Nat :=
  ((((g.node_data x).neighbors.find? (fun n => n.node = y))).map (·.distance)).getD 0

/-- whether a neighbor list has an entry for `w`. -/
def hasNb (l : List Neighbor) (w : Nat) : Bool := l.any (fun n => n.node = w)

/-- whether an `add_edge` call record `(u, v, d)` concerns the
unordered pair `{x, y}`. -/
def touches (x y : Nat) (u : Nat × Nat × Nat) : Bool :=
  (u.1 = x && u.2.1 = y) || (u.1 = y && u.2.1 = x)

/-- whether some call in the sequence concerns the pair `{x, y}`. -/
def mentioned (U : List (Nat × Nat × Nat)) (x y : Nat) : Bool :=
  U.any (touches x y)

/-- the weights of the calls concerning the pair `{x, y}`. -/
def pairWeights (U : List (Nat × Nat × Nat)) (x y : Nat) : List Nat :=
  (U.filter (touches x y)).map (·.2.2)

/-- minimum of a list of weights (0 for the empty list, which is only
used under a nonemptiness guard). -/
def minList : List Nat → Nat
  | [] => 0
  | d :: t => t.foldl min d

/-- run a sequence of `add_edge(u, v, d, true)` calls. -/
def applyAddEdges (U : List (Nat × Nat × Nat)) (g : Graph) : Graph :=
  U.foldl (fun g u => add_edge g u.1 u.2.1 u.2.2 true) g

/-- whether a `read_graph` run aborted (assertion failure). -/
def isAbort (r : Except Unit Graph) : Bool :=
  match r with
  | .error _ => true
  | .ok _ => false

/-- Modelled from the spec: the amended C4 description of the query —
the minimum over the meet-level block only, i.e. over the parallel
offsets `dist_index[l-1] + k` (0-based block start; 0 when `l = 0`) for
`k < min(a.dist_index[l] - a_off, b.dist_index[l] - b_off)`. -/
def meet_block_min (a b : FlatCutIndex) : Nat :=
  let l := PBV.lca_level a.pbv b.pbv
  let aOff := get_offset a.distIndex l
  let bOff := get_offset b.distIndex l
  let len := min (a.di l - aOff) (b.di l - bOff)
  ((List.range len).map (fun k => add32 (a.d (aOff + k)) (b.d (bOff + k)))).foldr min infinity

/-- a concrete index block pair: both at cut level 1 in the same leaf,
`dist_index = [1, 2]`, whose level-0 labels realize a distance (5)
smaller than any level-1 label sum (20). -/
def exC4a : FlatCutIndex := ⟨1, [1, 2], [0, 10], [1, 1]⟩

/-- second block of the C4 instance. -/
def exC4b : FlatCutIndex := ⟨1, [1, 2], [5, 10], [1, 1]⟩

/-- the spec section 4.6 ordering invariant on `down_neighbors`:
descendants have strictly larger `dist_index`. -/
def DownStrict (ch : CH) : Prop :=
  ∀ v, ∀ u ∈ ch.down v, ch.di v < ch.di u

/-- node ids of a vertex's up-neighbor entries. -/
def upNodes (ch : CH) (v : Nat) : List Nat := (ch.up v).map (·.node)

/-- the claim C6 edge-direction invariant: every up-neighbor has a
strictly smaller `dist_index`. -/
def UpStrict (ch : CH) : Prop :=
  ∀ v, ∀ nd ∈ upNodes ch v, ch.di nd < ch.di v

/-- `dist_index` assignment computed by the initialization loop of
`create_sc_graph`. -/
def scDi (g : Graph) (ciDi : Nat → List Nat) (ciCl : Nat → Nat)
    (closest : Nat → Nat) : Nat → Nat :=
  (scInit g ciDi ciCl closest).1.di

/-- the invariant carried through `create_sc_graph`: `dist_index` stays
the initialization assignment `d`, and every up-neighbor entry points
to a core vertex of the graph with strictly smaller `dist_index` that
is comparable to its owner (`comp v n`: in the real hierarchy, `n` lies
on `v`'s root path, i.e. in `v`'s own cut or an ancestor cut). -/
def ScUpInv (g : Graph) (closest : Nat → Nat) (d : Nat → Nat)
    (comp : Nat → Nat → Prop) (st : ScState) : Prop :=
  st.di = d ∧
  ∀ v, ∀ n ∈ st.up v, d n.node < d v ∧ closest n.node = n.node ∧
    n.node ∈ g.nodes ∧ comp v n.node

/-- a concrete 3-vertex shortcut DAG (a path 1–2–3 by `dist_index`):
`dist_index` 0, 1, 2; up-edges 2→1 (weight 5) and 3→2 (weight 7). -/
def exCh5 : CH :=
  { di := fun v => if v = 1 then 0 else if v = 2 then 1 else if v = 3 then 2 else 65535
    up := fun v => if v = 2 then [⟨1, 5, 1⟩] else if v = 3 then [⟨2, 7, 1⟩] else []
    down := fun v => if v = 1 then [2] else if v = 2 then [3] else [] }

/-- labels for the C5 instance: every vertex owns its block; block `v`
holds the label arrays of vertex `v` (self slot last). -/
def exCI5 : ContractionIndex :=
  { labels := fun v => ⟨v, 0, 0⟩
    blocks := fun b =>
      if b = 1 then ⟨0, [], [0], [1]⟩
      else if b = 2 then ⟨0, [], [5, 0], [1, 1]⟩
      else if b = 3 then ⟨0, [], [12, 9, 0], [1, 1, 1]⟩
      else ⟨0, [], [], []⟩ }

/-- the C5 update: the edge between 1 and 2 drops from 10 to 3. -/
def exUpd5 : List Upd := [((10, 3), (1, 2))]

/-- the dequeue-key trace of the DCL_Dec label phase. -/
def dclDecTrace (fuel : Nat) (ch : CH) (ci : ContractionIndex)
    (updates : List Upd) : List Nat :=
  (DCL_Dec fuel ch ci updates).2.2

/-- concrete 2-vertex graph 1—2 for the C6 witness. -/
def exG6 : Graph := add_edge (Graph.new.resize 2) 1 2 1 true

/-- `dist_index` arrays for the C6 witness (vertex 1 in the level-0 cut
with one label, vertex 2 with two). -/
def exCiDi6 : Nat → List Nat := fun v => if v = 1 then [1] else if v = 2 then [2] else []

/-- cut levels for the C6 witness. -/
def exCiCl6 : Nat → Nat := fun _ => 0

/-- no degree-1 contraction in the C6 witness. -/
def exClosest6 : Nat → Nat := fun v => v

/-- well-formedness of contraction chains: a non-null parent has a
strictly smaller `distance_offset`. -/
def ParentOffsetDec (ci : ContractionIndex) : Prop :=
  ∀ x, (ci.labels x).parent ≠ 0 →
    (ci.labels ((ci.labels x).parent)).distance_offset < (ci.labels x).distance_offset

/-- a concrete contraction index for the C7 witness: root 1 owns block
0, pendant 2 references it at offset 3, everything else owns block 5. -/
def exCI7 : ContractionIndex :=
  { labels := fun x =>
      if x = 1 then ⟨0, 0, 0⟩ else if x = 2 then ⟨0, 3, 1⟩ else ⟨5, 0, 0⟩
    blocks := fun b =>
      if b = 0 then ⟨1, [1, 2], [0, 4], [1, 2]⟩ else ⟨1, [1, 2], [6, 2], [1, 3]⟩ }

/-- a concrete contraction index for the C10 witness: vertices 1 and 2
share block 3 (a contraction class), with pendant data on vertex 2. -/
def exCI10 : ContractionIndex :=
  { labels := fun x =>
      if x = 1 then ⟨3, 0, 0⟩ else if x = 2 then ⟨3, 4, 1⟩ else ⟨7, 0, 0⟩
    blocks := fun _ => ⟨0, [1], [0], [1]⟩ }

/-- the C8 witness call sequence. -/
def exU8 : List (Nat × Nat × Nat) := [(1, 2, 5), (2, 1, 3), (2, 3, 4)]

/-- bucket-queue well-keyedness: every element sits in the bucket of its
key. -/
def QKeyed {α : Type} (kf : α → Nat) (q : MBQueue α) : Prop :=
  ∀ k, ∀ x ∈ q.buckets.getD k [], kf x = k

/-- bucket-queue cursor soundness: buckets below the cursor are empty,
and a logically empty queue is physically empty. -/
def QBelowEmpty {α : Type} (q : MBQueue α) : Prop :=
  (∀ k, k < q.minBucket → q.buckets.getD k [] = []) ∧
  (q.buckets.length ≤ q.minBucket → ∀ k, q.buckets.getD k [] = [])

/-! ### Theorems -/

theorem foldr_min_min (l : List Nat) (a b : Nat) :
    l.foldr min (min a b) = min b (l.foldr min a) := by
  induction l with
  | nil => exact min_comm a b
  | cons x t ih => simp only [List.foldr_cons, ih, min_left_comm]

theorem foldl_min_eq (f : Nat → Nat) (l : List Nat) (i : Nat) :
    l.foldl (fun m k => min m (f k)) i = (l.map f).foldr min i := by
  induction l generalizing i with
  | nil => rfl
  | cons x t ih => simp only [List.foldl_cons, List.map_cons, List.foldr_cons, ih, foldr_min_min]

/-- C4 (counterexample): the query does not return the minimum over the
whole parallel prefix `[0 .. dist_index[l])`: on the concrete blocks
`exC4a`, `exC4b` (meet level 1) it returns 20, the minimum over the
level-1 block only, while the whole-prefix minimum is 5. -/
theorem claim_C4_counterexample :
    fci_get_distance exC4a exC4b ≠ spec_parallel_range_min exC4a exC4b := by
  decide

/-- C4 (amended): for all pairs of flat cut indices, the label-based
distance returned by the query equals the minimum over the meet-level
block only — the parallel offsets `dist_index[l-1] + k` for
`k < min(a.dist_index[l] - a_off, b.dist_index[l] - b_off)`. -/
theorem claim_C4_amended (a b : FlatCutIndex) :
    fci_get_distance a b = meet_block_min a b := by
  unfold fci_get_distance get_cut_level_distance meet_block_min
  exact foldl_min_eq _ _ _

/-- C9 (counterexample): a malformed `a` line does NOT always abort the
run.  On the input `p sp 3 1 / a 1 2 5 / a x 9 9` the extraction of `v`
fails on `x` (which zeroes `v` and sets the fail bit), so `w` and `d`
keep their stale values 2 and 5 from the previous line; `add_edge(0, 2,
5, true)` passes all three assertions, the loop ends on the failed
stream, and the run terminates successfully with a partial graph
containing the spurious edge 0–2. -/
theorem claim_C9_counterexample :
    isAbort (read_graph (0, 0, 0)
      [GLine.pline (some 3), GLine.aline (some 1) (some 2) (some 5),
        GLine.aline none none none]) = false ∧
    (read_graph (0, 0, 0)
      [GLine.pline (some 3), GLine.aline (some 1) (some 2) (some 5),
        GLine.aline none none none]).toOption.map (fun gf => countNb gf 0 2) = some 1 := by
  constructor
  · decide
  · decide

/-- C9 (amended): only a parse failure on the `distance` field of an
`a` line is guaranteed to abort the run (the zeroed distance trips
`assert(distance > 0)`), for every remaining input, graph state and
register content; a failure on `v` or `w` leaves the later fields
stale, so `add_edge` may succeed and the run then terminates normally
with a partial graph.  Lines with unknown ids are skipped silently, and
some malformed input (`p 3 / <unknown> / a 1 2 <garbage>`) does
terminate unsuccessfully while the same input with a valid weight
succeeds — whatever the initial register content. -/
theorem claim_C9_amended :
    (∀ (a b : Nat) (rest : List GLine) (g : Graph) (r : Nat × Nat × Nat),
      readLinesAux (GLine.aline (some a) (some b) none :: rest) g r = Except.error ()) ∧
    (∀ (rest : List GLine) (g : Graph) (r : Nat × Nat × Nat),
      readLinesAux (GLine.otherline :: rest) g r = readLinesAux rest g r) ∧
    (∀ r : Nat × Nat × Nat,
      isAbort (read_graph r
        [GLine.pline (some 3), GLine.otherline,
          GLine.aline (some 1) (some 2) none]) = true) ∧
    (∀ r : Nat × Nat × Nat,
      isAbort (read_graph r
        [GLine.pline (some 3), GLine.otherline,
          GLine.aline (some 1) (some 2) (some 5)]) = false) := by
  refine ⟨?_, ?_, ?_, ?_⟩
  · intro a b rest g r
    simp [readLinesAux]
  · intro rest g r; rfl
  · intro r; rfl
  · intro r; rfl

theorem add32_comm (a b : Nat) : add32 a b = add32 b a := by
  unfold add32; rw [Nat.add_comm]

theorem mul16_comm (a b : Nat) : mul16 a b = mul16 b a := by
  unfold mul16; rw [Nat.mul_comm]

theorem natxor_comm (a b : Nat) : a.xor b = b.xor a := Nat.xor_comm a b

theorem lca_level_symm (bv1 bv2 : Nat) :
    PBV.lca_level bv1 bv2 = PBV.lca_level bv2 bv1 := by
  unfold PBV.lca_level
  rcases eq_or_ne (PBV.partition bv1) (PBV.partition bv2) with h | h
  · simp [h, Nat.min_comm]
  · simp only [ne_eq, h, not_false_eq_true, if_true, h.symm,
      Nat.min_comm (PBV.cut_level bv1) (PBV.cut_level bv2)]
    rw [natxor_comm (PBV.partition bv1) (PBV.partition bv2)]

theorem get_cut_level_distance_symm (a b : FlatCutIndex) (cl : Nat) :
    get_cut_level_distance a b cl = get_cut_level_distance b a cl := by
  simp only [get_cut_level_distance]
  rw [Nat.min_comm]
  congr 1
  funext m k
  rw [add32_comm]

theorem fci_get_distance_symm (a b : FlatCutIndex) :
    fci_get_distance a b = fci_get_distance b a := by
  unfold fci_get_distance
  rw [lca_level_symm, get_cut_level_distance_symm]

theorem fci_get_paths_symm (a b : FlatCutIndex) :
    fci_get_paths a b = fci_get_paths b a := by
  simp only [fci_get_paths]
  rw [lca_level_symm b.pbv a.pbv, Nat.min_comm (b.di _) (a.di _)]
  congr 2
  funext st k
  rw [add32_comm (b.d k) (a.d k), mul16_comm (b.p k) (a.p k)]

theorem lcaWalk_symm (L : Nat → ContractionLabel) :
    ∀ (fuel a b : Nat), lcaWalk L fuel a b = lcaWalk L fuel b a := by
  intro fuel
  induction fuel with
  | zero => intro a b; rfl
  | succ f ih =>
    intro a b
    by_cases hab : a = b
    · subst hab; rfl
    · have hba : ¬ b = a := fun h => hab h.symm
      rcases lt_trichotomy (L a).distance_offset (L b).distance_offset with h | h | h
      · simp only [lcaWalk, if_neg hab, if_neg hba, if_pos h, if_neg (lt_asymm h)]
        exact ih a (L b).parent
      · have hn1 : ¬ (L a).distance_offset < (L b).distance_offset := by
          rw [h]; exact lt_irrefl _
        have hn2 : ¬ (L b).distance_offset < (L a).distance_offset := by
          rw [h]; exact lt_irrefl _
        simp only [lcaWalk, if_neg hab, if_neg hba, if_neg hn1, if_neg hn2]
        exact ih (L a).parent (L b).parent
      · simp only [lcaWalk, if_neg hab, if_neg hba, if_neg (lt_asymm h), if_pos h]
        exact ih (L a).parent b

/-- C7: queries are symmetric: for every contraction index whose
non-null parent links strictly decrease `distance_offset` (as built by
the constructor) and every pair of (nonzero) vertex ids,
`get_distance(v, w) = get_distance(w, v)` and
`get_spc(v, w) = get_spc(w, v)`, both through the contraction-tree
branch and through the label scan. -/
theorem claim_C7 (ci : ContractionIndex) (v w : Nat)
    (hp : ParentOffsetDec ci) (hv : v ≠ 0) (hw : w ≠ 0) :
    ci_get_distance ci v w = ci_get_distance ci w v ∧
    ci_get_spc ci v w = ci_get_spc ci w v := by
  constructor
  · by_cases hb : (ci.labels v).blockId = (ci.labels w).blockId
    · have hb' : (ci.labels w).blockId = (ci.labels v).blockId := hb.symm
      by_cases hvw : v = w
      · subst hvw; rfl
      · have hwv : ¬ w = v := fun h => hvw h.symm
        by_cases h1 : (ci.labels v).distance_offset = 0
        · by_cases h2 : (ci.labels w).distance_offset = 0
          · simp only [ci_get_distance, if_pos hb, if_pos hb', if_neg hvw,
              if_neg hwv, if_pos h1, if_pos h2]
            rw [h1, h2]
          · simp only [ci_get_distance, if_pos hb, if_pos hb', if_neg hvw,
              if_neg hwv, if_pos h1, if_neg h2]
        · by_cases h2 : (ci.labels w).distance_offset = 0
          · simp only [ci_get_distance, if_pos hb, if_pos hb', if_neg hvw,
              if_neg hwv, if_neg h1, if_pos h2]
          · by_cases p1 : (ci.labels v).parent = w
            · by_cases p2 : (ci.labels w).parent = v
              · exfalso
                have l1 := hp v (by rw [p1]; exact hw)
                have l2 := hp w (by rw [p2]; exact hv)
                rw [p1] at l1
                rw [p2] at l2
                exact absurd l1 (not_lt_of_gt l2)
              · simp only [ci_get_distance, if_pos hb, if_pos hb', if_neg hvw,
                  if_neg hwv, if_neg h1, if_neg h2, if_pos p1, if_neg p2]
            · by_cases p2 : (ci.labels w).parent = v
              · simp only [ci_get_distance, if_pos hb, if_pos hb', if_neg hvw,
                  if_neg hwv, if_neg h1, if_neg h2, if_neg p1, if_pos p2]
              · simp only [ci_get_distance, if_pos hb, if_pos hb', if_neg hvw,
                  if_neg hwv, if_neg h1, if_neg h2, if_neg p1, if_neg p2]
                rw [Nat.add_comm (ci.labels w).distance_offset (ci.labels v).distance_offset,
                  lcaWalk_symm ci.labels _ w v]
                rcases lcaWalk ci.labels
                    ((ci.labels v).distance_offset + (ci.labels w).distance_offset + 1) v w
                  with _ | a
                · rfl
                · simp only
                  rw [add32_comm]
    · have hb' : ¬ (ci.labels w).blockId = (ci.labels v).blockId := fun h => hb h.symm
      simp only [ci_get_distance, if_neg hb, if_neg hb']
      rw [add32_comm (ci.labels v).distance_offset (ci.labels w).distance_offset,
        fci_get_distance_symm]
  · by_cases hb : (ci.labels v).blockId = (ci.labels w).blockId
    · have hb' : (ci.labels w).blockId = (ci.labels v).blockId := hb.symm
      simp only [ci_get_spc, if_pos hb, if_pos hb']
    · have hb' : ¬ (ci.labels w).blockId = (ci.labels v).blockId := fun h => hb h.symm
      simp only [ci_get_spc, if_neg hb, if_neg hb']
      exact fci_get_paths_symm _ _

/-- C7 (witness): symmetry at the concrete index `exCI7`, for the
pendant pair (2, 1). -/
theorem claim_C7_witness :
    ParentOffsetDec exCI7 ∧ (2 : Nat) ≠ 0 ∧ (1 : Nat) ≠ 0 ∧
    (ci_get_distance exCI7 2 1 = ci_get_distance exCI7 1 2 ∧
     ci_get_spc exCI7 2 1 = ci_get_spc exCI7 1 2) := by
  have hp : ParentOffsetDec exCI7 := by
    intro x hx
    by_cases h1 : x = 1
    · simp [exCI7, h1] at hx
    · by_cases h2 : x = 2
      · simp [exCI7, h1, h2]
      · simp [exCI7, h1, h2] at hx
  exact ⟨hp, by decide, by decide, claim_C7 exCI7 2 1 hp (by decide) (by decide)⟩

theorem hasNb_iff (l : List Neighbor) (y : Nat) :
    hasNb l y = true ↔ 0 < (l.filter (fun n => n.node = y)).length := by
  induction l with
  | nil => simp [hasNb]
  | cons n t ih =>
    by_cases h : n.node = y
    · simp [hasNb, List.any_cons, List.filter_cons, h]
    · simp only [hasNb, List.any_cons, List.filter_cons, decide_eq_true_eq, h,
        decide_False, Bool.false_or, if_neg h]
      exact ih

theorem filter_updNbList (l : List Neighbor) (w d y : Nat) :
    ((updNbList l w d).filter (fun n => n.node = y)).length =
      if hasNb l w then (l.filter (fun n => n.node = y)).length
      else (l.filter (fun n => n.node = y)).length + (if w = y then 1 else 0) := by
  induction l with
  | nil =>
    by_cases h : w = y <;> simp [updNbList, hasNb, h]
  | cons n t ih =>
    by_cases h : n.node = w
    · have hh : hasNb (n :: t) w = true := by simp [hasNb, h]
      rw [if_pos hh]
      simp only [updNbList, if_pos h, List.filter_cons]
      by_cases hy : n.node = y <;> simp [hy]
    · have hh : hasNb (n :: t) w = hasNb t w := by simp [hasNb, h]
      simp only [updNbList, if_neg h, List.filter_cons, hh]
      by_cases hy : n.node = y <;> by_cases ht : hasNb t w <;>
        by_cases hwy : w = y <;> simp [hy, ht, hwy] at ih ⊢ <;> omega

theorem find?_updNbList_ne (l : List Neighbor) (w d y : Nat) (h : ¬ w = y) :
    (updNbList l w d).find? (fun n => n.node = y) = l.find? (fun n => n.node = y) := by
  induction l with
  | nil => simp [updNbList, List.find?, h]
  | cons n t ih =>
    have hyw : ¬ y = w := fun hh => h hh.symm
    by_cases hn : n.node = w
    · have hny : ¬ n.node = y := by rw [hn]; exact h
      simp [updNbList, hn, List.find?, hny, h]
    · by_cases hny : n.node = y <;> simp [updNbList, hn, List.find?, hny, ih, hyw]

theorem find?_updNbList_eq (l : List Neighbor) (w d : Nat) :
    ((updNbList l w d).find? (fun n => n.node = w)).map (·.distance) =
      some (if hasNb l w
            then min (((l.find? (fun n => n.node = w)).map (·.distance)).getD 0) d
            else d) := by
  induction l with
  | nil => simp [updNbList, List.find?, hasNb]
  | cons n t ih =>
    by_cases hn : n.node = w
    · simp [updNbList, hn, List.find?, hasNb]
    · have hh : hasNb (n :: t) w = hasNb t w := by simp [hasNb, hn]
      simp [updNbList, hn, List.find?, hh, ih]

theorem countNb_addEdgeDir (g : Graph) (v w d x y : Nat) :
    countNb (addEdgeDir g v w d) x y =
      if x = v
      then ((updNbList (g.node_data v).neighbors w d).filter (fun n => n.node = y)).length
      else countNb g x y := by
  unfold countNb addEdgeDir
  by_cases hx : x = v <;> simp [hx]

theorem weightNb_addEdgeDir (g : Graph) (v w d x y : Nat) :
    weightNb (addEdgeDir g v w d) x y =
      if x = v
      then ((((updNbList (g.node_data v).neighbors w d).find?
              (fun n => n.node = y))).map (·.distance)).getD 0
      else weightNb g x y := by
  unfold weightNb addEdgeDir
  by_cases hx : x = v <;> simp [hx]

theorem mentioned_append_one (V : List (Nat × Nat × Nat)) (u : Nat × Nat × Nat)
    (x y : Nat) : mentioned (V ++ [u]) x y = (mentioned V x y || touches x y u) := by
  simp [mentioned, List.any_append]

theorem pairWeights_append_one (V : List (Nat × Nat × Nat)) (u : Nat × Nat × Nat)
    (x y : Nat) :
    pairWeights (V ++ [u]) x y =
      pairWeights V x y ++ (if touches x y u then [u.2.2] else []) := by
  by_cases h : touches x y u <;> simp [pairWeights, List.filter_append, h]

theorem minList_append_one (l : List Nat) (d : Nat) :
    minList (l ++ [d]) = if l = [] then d else min (minList l) d := by
  cases l with
  | nil => simp [minList]
  | cons x t => simp [minList, List.foldl_append]

theorem ite_true_eq {α : Type} (a b : α) : (if true = true then a else b) = a := rfl

theorem pairWeights_nil_of_not_mentioned (V : List (Nat × Nat × Nat)) (x y : Nat)
    (h : ¬ mentioned V x y = true) : pairWeights V x y = [] := by
  unfold pairWeights
  unfold mentioned at h
  rw [List.map_eq_nil_iff, List.filter_eq_nil_iff]
  intro u hu ht
  exact h (List.any_eq_true.mpr ⟨u, hu, ht⟩)

theorem hasNb_updNbList_self (l : List Neighbor) (w d : Nat) :
    hasNb (updNbList l w d) w = true := by
  induction l with
  | nil => simp [updNbList, hasNb]
  | cons n t ih =>
    by_cases h : n.node = w
    · simp [updNbList, hasNb, h]
    · simp only [updNbList, if_neg h]
      have hh : hasNb (n :: updNbList t w d) w = hasNb (updNbList t w d) w := by
        simp [hasNb, h]
      rw [hh, ih]

theorem count_updNbList_other (l : List Neighbor) (w d y : Nat) (h : ¬ w = y) :
    ((updNbList l w d).filter (fun n => n.node = y)).length =
      (l.filter (fun n => n.node = y)).length := by
  rw [filter_updNbList]
  by_cases ht : hasNb l w <;> simp [ht, h]

theorem pairWeights_ne_nil (V : List (Nat × Nat × Nat)) (x y : Nat)
    (hm : mentioned V x y = true) : pairWeights V x y ≠ [] := by
  obtain ⟨u, hu, ht⟩ := List.any_eq_true.mp hm
  have hmem : u ∈ V.filter (touches x y) := List.mem_filter.mpr ⟨hu, ht⟩
  rcases hf : V.filter (touches x y) with _ | ⟨p, t⟩
  · rw [hf] at hmem; cases hmem
  · simp [pairWeights, hf]

theorem minList_append_le (l : List Nat) (d : Nat) : minList (l ++ [d]) ≤ d := by
  rcases l with _ | ⟨p, t⟩
  · simp [minList]
  · rw [minList_append_one, if_neg (List.cons_ne_nil p t)]
    exact min_le_right _ _

/-- the effect of refreshing the slot for `z` in a neighbor list that
satisfies the pair invariant: the entry count becomes exactly 1 and the
stored weight becomes the minimum over all weights seen. -/
theorem upd_slot_spec (l : List Neighbor) (z dd : Nat) (m : Bool) (pw : List Nat)
    (hc : (l.filter (fun n => n.node = z)).length = if m then 1 else 0)
    (hw : m = true →
      (((l.find? (fun n => n.node = z)).map (·.distance)).getD 0) = minList pw)
    (hnil : m = false → pw = [])
    (hne : m = true → pw ≠ []) :
    ((updNbList l z dd).filter (fun n => n.node = z)).length = 1 ∧
    ((((updNbList l z dd).find? (fun n => n.node = z)).map (·.distance)).getD 0) =
      minList (pw ++ [dd]) := by
  cases m with
  | false =>
    have hpw := hnil rfl
    subst hpw
    have hc0 : (l.filter (fun n => n.node = z)).length = 0 := by simpa using hc
    have hhas : hasNb l z = false := by
      rw [← Bool.not_eq_true, hasNb_iff]
      omega
    constructor
    · rw [filter_updNbList, hhas]
      simp [hc0]
    · rw [find?_updNbList_eq, hhas]
      simp [minList]
  | true =>
    have hc1 : (l.filter (fun n => n.node = z)).length = 1 := by simpa using hc
    have hhas : hasNb l z = true := by rw [hasNb_iff]; omega
    constructor
    · rw [filter_updNbList, hhas]
      simp [hc1]
    · rw [find?_updNbList_eq, hhas]
      simp only [if_pos rfl, Option.getD_some, if_true]
      rw [hw rfl, minList_append_one, if_neg (hne rfl)]

/-- the effect of one `add_edge(a, b, dd, true)` call on the pair
invariant of claim C8. -/
theorem add_edge_pair_spec (g : Graph) (V : List (Nat × Nat × Nat))
    (u : Nat × Nat × Nat)
    (h : ∀ x y, countNb g x y = (if mentioned V x y then 1 else 0) ∧
      (mentioned V x y = true → weightNb g x y = minList (pairWeights V x y))) :
    ∀ x y, countNb (add_edge g u.1 u.2.1 u.2.2 true) x y =
        (if mentioned (V ++ [u]) x y then 1 else 0) ∧
      (mentioned (V ++ [u]) x y = true →
        weightNb (add_edge g u.1 u.2.1 u.2.2 true) x y =
          minList (pairWeights (V ++ [u]) x y)) := by
  obtain ⟨a, b, dd⟩ := u
  intro x y
  have hedge : add_edge g a b dd true = addEdgeDir (addEdgeDir g a b dd) b a dd := rfl
  have hnb1 : ((addEdgeDir g a b dd).node_data b).neighbors =
      if b = a then updNbList (g.node_data a).neighbors b dd
      else (g.node_data b).neighbors := by
    by_cases hba : b = a <;> simp [addEdgeDir, hba]
  rw [hedge, countNb_addEdgeDir, weightNb_addEdgeDir]
  by_cases hxb : x = b
  · subst hxb
    rw [if_pos rfl, if_pos rfl, hnb1]
    by_cases hba : x = a
    · -- self pair: a = b = x
      subst hba
      rw [if_pos rfl]
      by_cases hy : y = x
      · subst hy
        have htc : touches y y (y, y, dd) = true := by simp [touches]
        have hm' : mentioned (V ++ [(y, y, dd)]) y y = true := by
          rw [mentioned_append_one, htc, Bool.or_true]
        have hpw' : pairWeights (V ++ [(y, y, dd)]) y y = pairWeights V y y ++ [dd] := by
          rw [pairWeights_append_one, htc, if_pos rfl]
        rw [hm', hpw', ite_true_eq]
        have hs := upd_slot_spec (g.node_data y).neighbors y dd (mentioned V y y)
          (pairWeights V y y) ((h y y).1) ((h y y).2)
          (fun hf => pairWeights_nil_of_not_mentioned V y y (by rw [hf]; simp))
          (pairWeights_ne_nil V y y)
        have hs2 := upd_slot_spec (updNbList (g.node_data y).neighbors y dd) y dd true
          (pairWeights V y y ++ [dd])
          (by simp [hs.1]) (fun _ => hs.2)
          (by intro hff; cases hff)
          (fun _ => by rcases pairWeights V y y with _ | _ <;> simp)
        refine ⟨hs2.1, fun _ => ?_⟩
        show ((((updNbList (updNbList (g.node_data y).neighbors y dd) y dd).find?
            (fun n => n.node = y)).map (·.distance)).getD 0) = _
        rw [hs2.2, minList_append_one, if_neg (by rcases pairWeights V y y with _ | _ <;> simp)]
        exact Nat.min_eq_left (minList_append_le _ _)
      · -- x = a = b, y differs
        have hxy : ¬ x = y := fun hh => hy hh.symm
        have htc : touches x y (x, x, dd) = false := by simp [touches, hxy]
        have hm' : mentioned (V ++ [(x, x, dd)]) x y = mentioned V x y := by
          rw [mentioned_append_one, htc, Bool.or_false]
        have hpw' : pairWeights (V ++ [(x, x, dd)]) x y = pairWeights V x y := by
          rw [pairWeights_append_one, htc, if_neg (by simp), List.append_nil]
        rw [hm', hpw']
        have h1 := count_updNbList_other (updNbList (g.node_data x).neighbors x dd) x dd y hxy
        have h2 := count_updNbList_other (g.node_data x).neighbors x dd y hxy
        have hw1 := find?_updNbList_ne (updNbList (g.node_data x).neighbors x dd) x dd y hxy
        have hw2 := find?_updNbList_ne (g.node_data x).neighbors x dd y hxy
        refine ⟨?_, fun hm => ?_⟩
        · rw [h1, h2]
          exact (h x y).1
        · show ((((updNbList (updNbList (g.node_data x).neighbors x dd) x dd).find?
              (fun n => n.node = y)).map (·.distance)).getD 0) = _
          rw [hw1, hw2]
          exact (h x y).2 hm
    · -- x = b, b differs from a
      rw [if_neg hba]
      by_cases hy : y = a
      · subst hy
        have htc : touches x y (y, x, dd) = true := by simp [touches]
        have hm' : mentioned (V ++ [(y, x, dd)]) x y = true := by
          rw [mentioned_append_one, htc, Bool.or_true]
        have hpw' : pairWeights (V ++ [(y, x, dd)]) x y = pairWeights V x y ++ [dd] := by
          rw [pairWeights_append_one, htc, if_pos rfl]
        rw [hm', hpw', ite_true_eq]
        have hs := upd_slot_spec (g.node_data x).neighbors y dd (mentioned V x y)
          (pairWeights V x y) ((h x y).1) ((h x y).2)
          (fun hf => pairWeights_nil_of_not_mentioned V x y (by rw [hf]; simp))
          (pairWeights_ne_nil V x y)
        exact ⟨hs.1, fun _ => hs.2⟩
      · have hya : ¬ a = y := fun hh => hy hh.symm
        have htc : touches x y (a, x, dd) = false := by
          simp only [touches, Bool.or_eq_false_iff, Bool.and_eq_false_iff]
          exact ⟨Or.inl (decide_eq_false (fun hh => hba hh.symm)),
            Or.inl (decide_eq_false hya)⟩
        have hm' : mentioned (V ++ [(a, x, dd)]) x y = mentioned V x y := by
          rw [mentioned_append_one, htc, Bool.or_false]
        have hpw' : pairWeights (V ++ [(a, x, dd)]) x y = pairWeights V x y := by
          rw [pairWeights_append_one, htc, if_neg (by simp), List.append_nil]
        rw [hm', hpw']
        have h2 := count_updNbList_other (g.node_data x).neighbors a dd y hya
        have hw2 := find?_updNbList_ne (g.node_data x).neighbors a dd y hya
        refine ⟨?_, fun hm => ?_⟩
        · rw [h2]
          exact (h x y).1
        · show ((((updNbList (g.node_data x).neighbors a dd).find?
              (fun n => n.node = y)).map (·.distance)).getD 0) = _
          rw [hw2]
          exact (h x y).2 hm
  · rw [if_neg hxb, if_neg hxb, countNb_addEdgeDir, weightNb_addEdgeDir]
    by_cases hxa : x = a
    · subst hxa
      rw [if_pos rfl, if_pos rfl]
      have hbx : ¬ b = x := fun hh => hxb hh.symm
      by_cases hy : y = b
      · subst hy
        have htc : touches x y (x, y, dd) = true := by simp [touches]
        have hm' : mentioned (V ++ [(x, y, dd)]) x y = true := by
          rw [mentioned_append_one, htc, Bool.or_true]
        have hpw' : pairWeights (V ++ [(x, y, dd)]) x y = pairWeights V x y ++ [dd] := by
          rw [pairWeights_append_one, htc, if_pos rfl]
        rw [hm', hpw', ite_true_eq]
        have hs := upd_slot_spec (g.node_data x).neighbors y dd (mentioned V x y)
          (pairWeights V x y) ((h x y).1) ((h x y).2)
          (fun hf => pairWeights_nil_of_not_mentioned V x y (by rw [hf]; simp))
          (pairWeights_ne_nil V x y)
        exact ⟨hs.1, fun _ => hs.2⟩
      · have hyb : ¬ b = y := fun hh => hy hh.symm
        have htc : touches x y (x, b, dd) = false := by
          simp only [touches, Bool.or_eq_false_iff, Bool.and_eq_false_iff]
          exact ⟨Or.inr (decide_eq_false hyb), Or.inr (decide_eq_false hbx)⟩
        have hm' : mentioned (V ++ [(x, b, dd)]) x y = mentioned V x y := by
          rw [mentioned_append_one, htc, Bool.or_false]
        have hpw' : pairWeights (V ++ [(x, b, dd)]) x y = pairWeights V x y := by
          rw [pairWeights_append_one, htc, if_neg (by simp), List.append_nil]
        rw [hm', hpw']
        have h2 := count_updNbList_other (g.node_data x).neighbors b dd y hyb
        have hw2 := find?_updNbList_ne (g.node_data x).neighbors b dd y hyb
        refine ⟨?_, fun hm => ?_⟩
        · rw [h2]
          exact (h x y).1
        · show ((((updNbList (g.node_data x).neighbors b dd).find?
              (fun n => n.node = y)).map (·.distance)).getD 0) = _
          rw [hw2]
          exact (h x y).2 hm
    · rw [if_neg hxa, if_neg hxa]
      have htc : touches x y (a, b, dd) = false := by
        simp only [touches, Bool.or_eq_false_iff, Bool.and_eq_false_iff]
        exact ⟨Or.inl (decide_eq_false (fun hh => hxa hh.symm)),
          Or.inr (decide_eq_false (fun hh => hxb hh.symm))⟩
      have hm' : mentioned (V ++ [(a, b, dd)]) x y = mentioned V x y := by
        rw [mentioned_append_one, htc, Bool.or_false]
      have hpw' : pairWeights (V ++ [(a, b, dd)]) x y = pairWeights V x y := by
        rw [pairWeights_append_one, htc, if_neg (by simp), List.append_nil]
      rw [hm', hpw']
      exact ⟨(h x y).1, fun hm => (h x y).2 hm⟩

theorem applyAddEdges_spec :
    ∀ (U V : List (Nat × Nat × Nat)) (g : Graph),
    (∀ x y, countNb g x y = (if mentioned V x y then 1 else 0) ∧
      (mentioned V x y = true → weightNb g x y = minList (pairWeights V x y))) →
    ∀ x y, countNb (applyAddEdges U g) x y = (if mentioned (V ++ U) x y then 1 else 0) ∧
      (mentioned (V ++ U) x y = true →
        weightNb (applyAddEdges U g) x y = minList (pairWeights (V ++ U) x y)) := by
  intro U
  induction U with
  | nil =>
    intro V g h x y
    simpa using h x y
  | cons u t ih =>
    intro V g h x y
    have hstep := add_edge_pair_spec g V u h
    have hres := ih (V ++ [u]) (add_edge g u.1 u.2.1 u.2.2 true) hstep x y
    rw [List.append_assoc] at hres
    simpa [applyAddEdges] using hres

/-- C8: after any sequence of `add_edge(u, v, d, true)` calls with
positive weights on a fresh graph, each pair that was mentioned has
exactly one adjacency entry in each direction, carrying the minimum
weight over all calls for that pair; unmentioned pairs have none. -/
theorem claim_C8 (n : Nat) (U : List (Nat × Nat × Nat))
    (hU : ∀ u ∈ U, 0 < u.2.2) (x y : Nat) :
    countNb (applyAddEdges U (Graph.new.resize n)) x y =
      (if mentioned U x y then 1 else 0) ∧
    (mentioned U x y = true →
      weightNb (applyAddEdges U (Graph.new.resize n)) x y =
        minList (pairWeights U x y)) := by
  have hinit : ∀ x y, countNb (Graph.new.resize n) x y =
      (if mentioned ([] : List (Nat × Nat × Nat)) x y then 1 else 0) ∧
      (mentioned ([] : List (Nat × Nat × Nat)) x y = true →
        weightNb (Graph.new.resize n) x y =
          minList (pairWeights ([] : List (Nat × Nat × Nat)) x y)) := by
    intro x y
    have hnb : ((Graph.new.resize n).node_data x).neighbors = [] := by
      simp only [Graph.resize]
      split <;> rfl
    refine ⟨?_, ?_⟩
    · simp [countNb, hnb, mentioned]
    · intro hm
      simp [mentioned] at hm
  have hres := applyAddEdges_spec U [] (Graph.new.resize n) hinit x y
  simpa using hres

/-- C8 (witness): the concrete calls `exU8` on a 3-vertex graph, at the
pair (1, 2), whose weight ends up as min(5, 3) = 3. -/
theorem claim_C8_witness :
    (∀ u ∈ exU8, 0 < u.2.2) ∧
    (countNb (applyAddEdges exU8 (Graph.new.resize 3)) 1 2 =
      (if mentioned exU8 1 2 then 1 else 0) ∧
    (mentioned exU8 1 2 = true →
      weightNb (applyAddEdges exU8 (Graph.new.resize 3)) 1 2 =
        minList (pairWeights exU8 1 2))) :=
  ⟨by decide, claim_C8 3 exU8 (by decide) 1 2⟩

theorem getD_ge_length {α : Type} (l : List α) (k : Nat) (d : α)
    (h : l.length ≤ k) : l.getD k d = d := by
  rw [List.getD_eq_getElem?_getD, List.getElem?_eq_none h]
  rfl

theorem getD_set_self {α : Type} (l : List α) (n : Nat) (a d : α)
    (h : n < l.length) : (l.set n a).getD n d = a := by
  rw [List.getD_eq_getElem?_getD, List.getElem?_set_eq_of_lt a h]
  rfl

theorem getD_set_ne {α : Type} (l : List α) (n m : Nat) (a d : α)
    (h : n ≠ m) : (l.set n a).getD m d = l.getD m d := by
  rw [List.getD_eq_getElem?_getD, List.getElem?_set_ne h, ← List.getD_eq_getElem?_getD]

theorem getD_append_replicate {α : Type} (l : List (List α)) (m k : Nat) :
    (l ++ List.replicate m ([] : List α)).getD k [] = l.getD k [] := by
  by_cases h : k < l.length
  · rw [List.getD_eq_getElem?_getD, List.getElem?_append, if_pos h,
      ← List.getD_eq_getElem?_getD]
  · push_neg at h
    rw [getD_ge_length l k [] h, List.getD_eq_getElem?_getD,
      List.getElem?_append_right h]
    rcases hr : (List.replicate m ([] : List α))[k - l.length]? with _ | v
    · rfl
    · have := List.getElem?_mem hr
      rw [List.eq_of_mem_replicate this]
      rfl

/-- characterization of bucket contents after `push`. -/
theorem push_buckets_getD {α : Type} (q : MBQueue α) (x : α) (b k : Nat) :
    (q.push x b).buckets.getD k [] =
      if k = b then q.buckets.getD b [] ++ [x] else q.buckets.getD k [] := by
  unfold MBQueue.push
  simp only
  by_cases hres : q.buckets.length ≤ b
  · rw [if_pos hres]
    have hlen : b < (q.buckets ++ List.replicate (b + 1 - q.buckets.length) []).length := by
      rw [List.length_append, List.length_replicate]
      omega
    by_cases hk : k = b
    · subst hk
      rw [getD_set_self _ _ _ _ hlen, if_pos rfl, getD_append_replicate]
    · rw [getD_set_ne _ _ _ _ _ (fun hh => hk hh.symm), if_neg hk, getD_append_replicate]
  · rw [if_neg hres]
    push_neg at hres
    by_cases hk : k = b
    · subst hk
      rw [getD_set_self _ _ _ _ hres, if_pos rfl]
    · rw [getD_set_ne _ _ _ _ _ (fun hh => hk hh.symm), if_neg hk]

/-- the cursor after `push` never reaches the (grown) bucket count. -/
theorem push_min_lt_length {α : Type} (q : MBQueue α) (x : α) (b : Nat) :
    (q.push x b).minBucket < (q.push x b).buckets.length := by
  unfold MBQueue.push
  simp only [List.length_set]
  by_cases he : q.buckets.length ≤ q.minBucket ∨ b < q.minBucket
  · rw [if_pos he]
    by_cases hres : q.buckets.length ≤ b
    · rw [if_pos hres, List.length_append, List.length_replicate]
      omega
    · rw [if_neg hres]
      omega
  · rw [if_neg he]
    push_neg at he
    by_cases hres : q.buckets.length ≤ b
    · rw [if_pos hres, List.length_append, List.length_replicate]
      omega
    · rw [if_neg hres]
      omega

theorem push_keyed {α : Type} (kf : α → Nat) (q : MBQueue α) (x : α) (b : Nat)
    (hq : QKeyed kf q) (hx : kf x = b) : QKeyed kf (q.push x b) := by
  intro k y hy
  rw [push_buckets_getD] at hy
  by_cases hk : k = b
  · rw [if_pos hk] at hy
    rcases List.mem_append.mp hy with h | h
    · rw [hq b y h, hk]
    · rw [List.mem_singleton.mp h, hx, hk]
  · rw [if_neg hk] at hy
    exact hq k y hy

theorem push_below {α : Type} (q : MBQueue α) (x : α) (b : Nat)
    (hq : QBelowEmpty q) : QBelowEmpty (q.push x b) := by
  constructor
  · intro k hk
    have hmin : (q.push x b).minBucket =
        if q.buckets.length ≤ q.minBucket ∨ b < q.minBucket then b else q.minBucket := rfl
    rw [push_buckets_getD]
    rw [hmin] at hk
    by_cases hc : q.buckets.length ≤ q.minBucket ∨ b < q.minBucket
    · rw [if_pos hc] at hk
      rw [if_neg (by omega : ¬ k = b)]
      rcases hc with hc | hc
      · exact hq.2 hc k
      · exact hq.1 k (by omega)
    · rw [if_neg hc] at hk
      push_neg at hc
      rw [if_neg (by omega : ¬ k = b)]
      exact hq.1 k hk
  · intro hlen
    exact absurd hlen (by have := push_min_lt_length q x b; omega)

theorem push_min_ge {α : Type} (q : MBQueue α) (x : α) (b m : Nat)
    (hm : m ≤ q.minBucket) (hb : m ≤ b) : m ≤ (q.push x b).minBucket := by
  have hmin : (q.push x b).minBucket =
      if q.buckets.length ≤ q.minBucket ∨ b < q.minBucket then b else q.minBucket := rfl
  rw [hmin]
  by_cases hc : q.buckets.length ≤ q.minBucket ∨ b < q.minBucket
  · rw [if_pos hc]; exact hb
  · rw [if_neg hc]; exact hm

theorem advanceFrom_spec {α : Type} (bs : List (List α)) :
    ∀ (fuel mb : Nat),
      mb ≤ MBQueue.advanceFrom bs fuel mb ∧
      (∀ j, mb ≤ j → j < MBQueue.advanceFrom bs fuel mb → bs.getD j [] = []) := by
  intro fuel
  induction fuel with
  | zero =>
    intro mb
    refine ⟨le_refl _, fun j h1 h2 => ?_⟩
    unfold MBQueue.advanceFrom at h2
    omega
  | succ f ih =>
    intro mb
    unfold MBQueue.advanceFrom
    by_cases hc : mb < bs.length ∧ (bs.getD mb []).isEmpty
    · rw [if_pos hc]
      obtain ⟨h1, h2⟩ := ih (mb + 1)
      refine ⟨by omega, fun j hj1 hj2 => ?_⟩
      by_cases hj : j = mb
      · subst hj
        exact List.isEmpty_iff.mp hc.2
      · exact h2 j (by omega) hj2
    · rw [if_neg hc]
      exact ⟨le_refl _, fun j h1 h2 => by omega⟩

theorem popQ_spec {α : Type} (kf : α → Nat) (q : MBQueue α) (x : α) (key : Nat)
    (q' : MBQueue α) (hpop : q.popQ = some (x, key, q'))
    (hk : QKeyed kf q) (hb : QBelowEmpty q) :
    kf x = key ∧ key = q.minBucket ∧ QKeyed kf q' ∧ QBelowEmpty q' ∧
      q.minBucket ≤ q'.minBucket := by
  unfold MBQueue.popQ at hpop
  by_cases hlen : q.buckets.length ≤ q.minBucket
  · rw [if_pos hlen] at hpop
    cases hpop
  · rw [if_neg hlen] at hpop
    push_neg at hlen
    rcases hlast : (q.buckets.getD q.minBucket []).getLast? with _ | top
    · simp only [hlast] at hpop
      cases hpop
    · simp only [hlast, Option.some.injEq, Prod.mk.injEq] at hpop
      obtain ⟨hx, hkey, hq'⟩ := hpop
      subst hx
      subst hkey
      subst hq'
      have htopmem : top ∈ q.buckets.getD q.minBucket [] := by
        apply List.mem_of_mem_getLast?
        rw [hlast]
        rfl
      set bs2 := q.buckets.set q.minBucket (q.buckets.getD q.minBucket []).dropLast with hbs2
      have hlen2 : bs2.length = q.buckets.length := by
        rw [hbs2, List.length_set]
      have hspec := advanceFrom_spec bs2 (bs2.length + 1) q.minBucket
      refine ⟨hk _ top htopmem, rfl, ?_, ⟨?_, ?_⟩, hspec.1⟩
      · intro k y hy
        simp only at hy
        by_cases hkm : k = q.minBucket
        · subst hkm
          rw [hbs2, getD_set_self _ _ _ _ hlen] at hy
          exact hk _ y (List.dropLast_subset _ hy)
        · rw [hbs2, getD_set_ne _ _ _ _ _ (fun hh => hkm hh.symm)] at hy
          exact hk k y hy
      · intro k hk2
        simp only at hk2 ⊢
        by_cases hkmin : k < q.minBucket
        · rw [hbs2, getD_set_ne _ _ _ _ _ (by omega)]
          exact hb.1 k hkmin
        · exact hspec.2 k (by omega) hk2
      · intro hlen3 k
        simp only at hlen3 ⊢
        by_cases hkmin : k < q.minBucket
        · rw [hbs2, getD_set_ne _ _ _ _ _ (by omega)]
          exact hb.1 k hkmin
        · by_cases hk4 : k < MBQueue.advanceFrom bs2 (bs2.length + 1) q.minBucket
          · exact hspec.2 k (by omega) hk4
          · exact getD_ge_length _ _ _ (by omega)

theorem foldl_induction {α β : Type} (l : List α) (init : β) (step : β → α → β)
    (P : β → Prop) (h0 : P init) (hs : ∀ b x, x ∈ l → P b → P (step b x)) :
    P (l.foldl step init) := by
  induction l generalizing init with
  | nil => exact h0
  | cons a t ih =>
    exact ih (step init a) (hs init a (by simp) h0)
      (fun b x hx hb => hs b x (by simp [hx]) hb)

theorem emptyQ_inv {α : Type} (kf : α → Nat) :
    QKeyed kf (MBQueue.emptyQ : MBQueue α) ∧ QBelowEmpty (MBQueue.emptyQ : MBQueue α) := by
  refine ⟨fun k x hx => ?_, fun k _ => rfl, fun _ k => rfl⟩
  simp [MBQueue.emptyQ, List.getD] at hx

theorem dclDecInitQ_inv (ch : CH) (ci : ContractionIndex) (C : List CEdge) :
    QKeyed (fun x : ICHNode => ch.di x.v) (dclDecInitQ ch ci C) ∧
    QBelowEmpty (dclDecInitQ ch ci C) := by
  unfold dclDecInitQ
  apply foldl_induction _ _ _
    (fun q => QKeyed (fun x : ICHNode => ch.di x.v) q ∧ QBelowEmpty q)
    (emptyQ_inv _)
  intro q iter _ hq
  dsimp only
  by_cases hc : iter.2.1 ≤ (ciBlock ci iter.1.1).d (ch.di iter.1.2)
  · rw [if_pos hc]
    apply foldl_induction _ _ _
      (fun q => QKeyed (fun x : ICHNode => ch.di x.v) q ∧ QBelowEmpty q) hq
    intro q2 i _ hq2
    dsimp only
    by_cases hc2 : add32 iter.2.1 ((ciBlock ci iter.1.2).d i) ≤ (ciBlock ci iter.1.1).d i
    · rw [if_pos hc2]
      exact ⟨push_keyed _ _ _ _ hq2.1 rfl, push_below _ _ _ hq2.2⟩
    · rw [if_neg hc2]
      exact hq2
  · rw [if_neg hc]
    exact hq

theorem dclDecLoop_trace (ch : CH)
    (hds : ∀ v u, u ∈ ch.down v → ch.di v < ch.di u) :
    ∀ (fuel : Nat) (ci : ContractionIndex) (q : MBQueue ICHNode) (tr : List Nat),
      QKeyed (fun x : ICHNode => ch.di x.v) q → QBelowEmpty q →
      ∃ δ, (dclDecLoop ch fuel ci q tr).2 = tr ++ δ ∧
        List.Chain' (· ≤ ·) δ ∧ ∀ t ∈ δ, q.minBucket ≤ t := by
  intro fuel
  induction fuel with
  | zero =>
    intro ci q tr hk hb
    exact ⟨[], by simp [dclDecLoop], List.chain'_nil, by simp⟩
  | succ f ih =>
    intro ci q tr hk hb
    rcases hpop : q.popQ with _ | ⟨next, key, q'⟩
    · refine ⟨[], ?_, List.chain'_nil, by simp⟩
      simp [dclDecLoop, hpop]
    · obtain ⟨hkx, hkey, hk', hb', hmin'⟩ := popQ_spec _ q next key q' hpop hk hb
      have hkdi : ch.di next.v = key := hkx
      by_cases hcond : next.distance < (ciBlock ci next.v).d next.i ∨
          (ciBlock ci next.v).d next.i = next.distance
      · have hloop : dclDecLoop ch (f + 1) ci q tr =
            dclDecLoop ch f
              (if next.distance < (ciBlock ci next.v).d next.i then
                ciUpdBlock ci next.v (fun b =>
                  { b with distances := b.distances.set next.i next.distance
                           paths := b.paths.set next.i next.path_count })
              else
                ciUpdBlock ci next.v (fun b =>
                  { b with paths := b.paths.set next.i (add16 (b.p next.i) next.path_count) }))
              ((ch.down next.v).foldl
                (fun q u =>
                  let x := upFind ch u next.v
                  let dist := add32 x.distance next.distance
                  let cu := ciBlock
                    (if next.distance < (ciBlock ci next.v).d next.i then
                      ciUpdBlock ci next.v (fun b =>
                        { b with distances := b.distances.set next.i next.distance
                                 paths := b.paths.set next.i next.path_count })
                    else
                      ciUpdBlock ci next.v (fun b =>
                        { b with paths := b.paths.set next.i (add16 (b.p next.i) next.path_count) })) u
                  if dist ≤ cu.d next.i then
                    q.push ⟨u, next.i, dist, mul16 x.path_count next.path_count⟩ (ch.di u)
                  else q)
                q')
              (tr ++ [key]) := by
          simp only [dclDecLoop, hpop]
          rw [if_pos hcond]
        set ciNew :=
          (if next.distance < (ciBlock ci next.v).d next.i then
            ciUpdBlock ci next.v (fun b =>
              { b with distances := b.distances.set next.i next.distance
                       paths := b.paths.set next.i next.path_count })
          else
            ciUpdBlock ci next.v (fun b =>
              { b with paths := b.paths.set next.i (add16 (b.p next.i) next.path_count) }))
          with hciNew
        have hfold := foldl_induction (ch.down next.v) q'
          (fun q u =>
            let x := upFind ch u next.v
            let dist := add32 x.distance next.distance
            let cu := ciBlock ciNew u
            if dist ≤ cu.d next.i then
              q.push ⟨u, next.i, dist, mul16 x.path_count next.path_count⟩ (ch.di u)
            else q)
          (fun q2 => (QKeyed (fun x : ICHNode => ch.di x.v) q2 ∧ QBelowEmpty q2) ∧
            key ≤ q2.minBucket)
          ⟨⟨hk', hb'⟩, hkey ▸ hmin'⟩
          (by
            intro q2 u hu hq2
            dsimp only
            by_cases hc2 : add32 (upFind ch u next.v).distance next.distance ≤
                (ciBlock ciNew u).d next.i
            · rw [if_pos hc2]
              have hlt : key ≤ ch.di u := by
                have := hds next.v u hu
                omega
              exact ⟨⟨push_keyed _ _ _ _ hq2.1.1 rfl, push_below _ _ _ hq2.1.2⟩,
                push_min_ge _ _ _ _ hq2.2 hlt⟩
            · rw [if_neg hc2]
              exact hq2)
        obtain ⟨δ2, heq2, hchain2, hge2⟩ := ih ciNew _ (tr ++ [key]) hfold.1.1 hfold.1.2
        refine ⟨key :: δ2, ?_, ?_, ?_⟩
        · rw [hloop, heq2, List.append_assoc]
          rfl
        · rw [List.chain'_cons']
          refine ⟨fun b hbh => ?_, hchain2⟩
          have : b ∈ δ2 := List.mem_of_mem_head? hbh
          have := hge2 b this
          omega
        · intro t ht
          rcases List.mem_cons.mp ht with h | h
          · omega
          · have := hge2 t h
            omega
      · have hloop : dclDecLoop ch (f + 1) ci q tr =
            dclDecLoop ch f ci q' (tr ++ [key]) := by
          simp only [dclDecLoop, hpop]
          rw [if_neg hcond]
        obtain ⟨δ2, heq2, hchain2, hge2⟩ := ih ci q' (tr ++ [key]) hk' hb'
        refine ⟨key :: δ2, ?_, ?_, ?_⟩
        · rw [hloop, heq2, List.append_assoc]
          rfl
        · rw [List.chain'_cons']
          refine ⟨fun b hbh => ?_, hchain2⟩
          have hmem : b ∈ δ2 := List.mem_of_mem_head? hbh
          have := hge2 b hmem
          omega
        · intro t ht
          rcases List.mem_cons.mp ht with h | h
          · omega
          · have := hge2 t h
            omega

theorem updFirst_map_node (f : Neighbor → Neighbor) (w : Nat) (l : List Neighbor)
    (hf : ∀ n, (f n).node = n.node) :
    (updFirst f w l).map (·.node) = l.map (·.node) := by
  induction l with
  | nil => rfl
  | cons n t ih =>
    by_cases h : n.node = w
    · simp [updFirst, h, hf]
    · simp [updFirst, h, ih]

theorem upSet_shape (ch : CH) (v w : Nat) (f : Neighbor → Neighbor)
    (hf : ∀ n, (f n).node = n.node) :
    (upSet ch v w f).di = ch.di ∧ (upSet ch v w f).down = ch.down ∧
    ∀ z, upNodes (upSet ch v w f) z = upNodes ch z := by
  refine ⟨rfl, rfl, fun z => ?_⟩
  unfold upNodes upSet fupd
  simp only
  by_cases hz : z = v
  · rw [if_pos hz, hz]
    exact updFirst_map_node f w _ hf
  · rw [if_neg hz]

theorem gsDecLoop_shape :
    ∀ (fuel : Nat) (ch : CH) (q : List DCHNode) (C : List CEdge),
      (gsDecLoop fuel ch q C).1.di = ch.di ∧
      (gsDecLoop fuel ch q C).1.down = ch.down ∧
      ∀ v, upNodes (gsDecLoop fuel ch q C).1 v = upNodes ch v := by
  intro fuel
  induction fuel with
  | zero => intro ch q C; exact ⟨rfl, rfl, fun _ => rfl⟩
  | succ f ih =>
    intro ch q C
    rcases hpop : pqPopMax q with _ | ⟨next, q'⟩
    · simp [gsDecLoop, hpop]
    · simp only [gsDecLoop, hpop]
      by_cases hcond : next.distance < (upFind ch next.v next.w).distance ∨
          next.distance = (upFind ch next.v next.w).distance
      · rw [if_pos hcond]
        by_cases hlt : next.distance < (upFind ch next.v next.w).distance
        · rw [if_pos hlt]
          have hsh := upSet_shape ch next.v next.w
            (fun n => { n with distance := next.distance, path_count := next.path_count })
            (fun n => rfl)
          obtain ⟨h1, h2, h3⟩ := ih (upSet ch next.v next.w
            (fun n => { n with distance := next.distance, path_count := next.path_count })) _ _
          exact ⟨h1.trans hsh.1, h2.trans hsh.2.1,
            fun v => (h3 v).trans (hsh.2.2 v)⟩
        · rw [if_neg hlt]
          have hsh := upSet_shape ch next.v next.w
            (fun n => { n with path_count := add16 n.path_count next.path_count })
            (fun n => rfl)
          obtain ⟨h1, h2, h3⟩ := ih (upSet ch next.v next.w
            (fun n => { n with path_count := add16 n.path_count next.path_count })) _ _
          exact ⟨h1.trans hsh.1, h2.trans hsh.2.1,
            fun v => (h3 v).trans (hsh.2.2 v)⟩
      · rw [if_neg hcond]
        exact ih ch q' C

theorem GS_Dec_shape (fuel : Nat) (ch : CH) (updates : List Upd) :
    (GS_Dec fuel ch updates).1.di = ch.di ∧
    (GS_Dec fuel ch updates).1.down = ch.down ∧
    ∀ v, upNodes (GS_Dec fuel ch updates).1 v = upNodes ch v :=
  gsDecLoop_shape fuel ch (gsDecInit ch updates) []

theorem gsIncLoop_shape (g : Graph) :
    ∀ (fuel : Nat) (ch : CH) (q : List DCHNode) (C : List CEdge),
      (gsIncLoop g fuel ch q C).1.di = ch.di ∧
      (gsIncLoop g fuel ch q C).1.down = ch.down ∧
      ∀ v, upNodes (gsIncLoop g fuel ch q C).1 v = upNodes ch v := by
  intro fuel
  induction fuel with
  | zero => intro ch q C; exact ⟨rfl, rfl, fun _ => rfl⟩
  | succ f ih =>
    intro ch q C
    rcases hpop : pqPopMax q with _ | ⟨next, q'⟩
    · simp [gsIncLoop, hpop]
    · simp only [gsIncLoop, hpop]
      by_cases hsub : next.path_count < (upFind ch next.v next.w).path_count
      · rw [if_pos hsub]
        have hsh := upSet_shape ch next.v next.w
          (fun n => { n with path_count := n.path_count - next.path_count })
          (fun n => rfl)
        obtain ⟨h1, h2, h3⟩ := ih (upSet ch next.v next.w
          (fun n => { n with path_count := n.path_count - next.path_count })) _ _
        exact ⟨h1.trans hsh.1, h2.trans hsh.2.1,
          fun v => (h3 v).trans (hsh.2.2 v)⟩
      · rw [if_neg hsub]
        have hsh := upSet_shape ch next.v next.w
          (fun n => { n with distance := (gsIncRecompute g ch next.v next.w).1,
                             path_count := (gsIncRecompute g ch next.v next.w).2 })
          (fun n => rfl)
        obtain ⟨h1, h2, h3⟩ := ih (upSet ch next.v next.w
          (fun n => { n with distance := (gsIncRecompute g ch next.v next.w).1,
                             path_count := (gsIncRecompute g ch next.v next.w).2 })) _ _
        exact ⟨h1.trans hsh.1, h2.trans hsh.2.1,
          fun v => (h3 v).trans (hsh.2.2 v)⟩

theorem GS_Inc_shape (g : Graph) (fuel : Nat) (ch : CH) (updates : List Upd) :
    (GS_Inc g fuel ch updates).1.di = ch.di ∧
    (GS_Inc g fuel ch updates).1.down = ch.down ∧
    ∀ v, upNodes (GS_Inc g fuel ch updates).1 v = upNodes ch v :=
  gsIncLoop_shape g fuel ch (gsIncInit ch updates) []

/-- C5 (counterexample): the bucket keys of successive dequeues in the
DCL_Dec label phase are not monotone decreasing: on the concrete
3-vertex hierarchy `exCh5` with the weight decrease `exUpd5`, the
dequeue-key trace is `[1, 2]`, which is increasing. -/
theorem claim_C5_counterexample :
    dclDecTrace 10 exCh5 exCI5 exUpd5 = [1, 2] ∧
    ¬ List.Chain' (fun a b : Nat => b ≤ a) (dclDecTrace 10 exCh5 exCI5 exUpd5) := by
  have h1 : dclDecTrace 10 exCh5 exCI5 exUpd5 = [1, 2] := by decide
  refine ⟨h1, ?_⟩
  rw [h1]
  intro h
  have h2 := (List.chain'_cons.mp h).1
  omega

/-- C5 (amended): during DCL_Dec, entries pushed to the bucket queue
keyed by `ch[v].dist_index` are dequeued in nondecreasing (ascending)
`dist_index` order — ancestors before descendants, top-down via
`down_neighbors` — for every hierarchy whose down-neighbors have
strictly larger `dist_index`. -/
theorem claim_C5_amended (fuel : Nat) (ch : CH) (ci : ContractionIndex)
    (updates : List Upd) (hds : DownStrict ch) :
    List.Chain' (· ≤ ·) (dclDecTrace fuel ch ci updates) := by
  unfold dclDecTrace DCL_Dec
  obtain ⟨hdi, hdn, _⟩ := GS_Dec_shape fuel ch updates
  have hds' : ∀ v, ∀ u ∈ (GS_Dec fuel ch updates).1.down v,
      (GS_Dec fuel ch updates).1.di v < (GS_Dec fuel ch updates).1.di u := by
    rw [hdi, hdn]
    exact hds
  have hinv := dclDecInitQ_inv (GS_Dec fuel ch updates).1 ci (GS_Dec fuel ch updates).2
  obtain ⟨δ, heq, hchain, _⟩ := dclDecLoop_trace (GS_Dec fuel ch updates).1 hds' fuel ci
    (dclDecInitQ (GS_Dec fuel ch updates).1 ci (GS_Dec fuel ch updates).2) [] hinv.1 hinv.2
  simp only
  rw [heq]
  simpa using hchain

/-- C5 (witness): the amended ordering at the concrete instance. -/
theorem claim_C5_witness :
    DownStrict exCh5 ∧ List.Chain' (· ≤ ·) (dclDecTrace 10 exCh5 exCI5 exUpd5) := by
  have hds : DownStrict exCh5 := by
    intro v u hu
    simp only [exCh5] at hu ⊢
    split_ifs at hu with h1 h2
    · rw [List.mem_singleton.mp hu]
      simp [h1]
    · rw [List.mem_singleton.mp hu]
      simp [h1, h2]
    · exact absurd hu (List.not_mem_nil u)
  exact ⟨hds, claim_C5_amended 10 exCh5 exCI5 exUpd5 hds⟩

/-- C10: whenever two vertices' contraction labels reference the same
`FlatCutIndex` data block, `get_spc` returns exactly 1, for every block
store, every stored path-count array and every pair of distance
offsets. -/
theorem claim_C10 (ci : ContractionIndex) (v w : Nat)
    (h : (ci.labels v).blockId = (ci.labels w).blockId) :
    ci_get_spc ci v w = 1 := by
  unfold ci_get_spc
  simp [h]

/-- C10 (witness): pendant vertex 2 and its root 1 share block 3. -/
theorem claim_C10_witness :
    (exCI10.labels 2).blockId = (exCI10.labels 1).blockId ∧
    ci_get_spc exCI10 2 1 = 1 :=
  ⟨by decide, claim_C10 exCI10 2 1 (by decide)⟩

theorem mem_insertSorted {α : Type} (le : α → α → Bool) (x : α) (l : List α) (y : α) :
    y ∈ insertSorted le x l ↔ y = x ∨ y ∈ l := by
  induction l with
  | nil => simp [insertSorted]
  | cons z t ih =>
    rw [insertSorted]
    by_cases hle : le x z = true
    · rw [if_pos hle]
      exact List.mem_cons
    · rw [if_neg hle]
      simp only [List.mem_cons, ih]
      tauto

theorem mem_sortListBy {α : Type} (le : α → α → Bool) (l : List α) (y : α) :
    y ∈ sortListBy le l ↔ y ∈ l := by
  induction l with
  | nil => exact Iff.rfl
  | cons z t ih =>
    show y ∈ insertSorted le z (sortListBy le t) ↔ _
    rw [mem_insertSorted, ih, List.mem_cons]

theorem pairwise_insertSorted {α : Type} (le : α → α → Bool)
    (htot : ∀ a b, le a b = true ∨ le b a = true)
    (htrans : ∀ a b c, le a b = true → le b c = true → le a c = true)
    (x : α) (l : List α)
    (h : List.Pairwise (fun a b => le a b = true) l) :
    List.Pairwise (fun a b => le a b = true) (insertSorted le x l) := by
  induction l with
  | nil => simp [insertSorted]
  | cons z t ih =>
    rcases List.pairwise_cons.mp h with ⟨hz, ht⟩
    by_cases hle : le x z = true
    · rw [insertSorted, if_pos hle]
      refine List.pairwise_cons.mpr ⟨?_, h⟩
      intro w hw
      rcases List.mem_cons.mp hw with rfl | hw
      · exact hle
      · exact htrans x z w hle (hz w hw)
    · rw [insertSorted, if_neg hle]
      refine List.pairwise_cons.mpr ⟨?_, ih ht⟩
      intro w hw
      rcases (mem_insertSorted le x t w).mp hw with hwx | hw
      · rw [hwx]
        rcases htot x z with h1 | h1
        · exact absurd h1 hle
        · exact h1
      · exact hz w hw

theorem pairwise_sortListBy {α : Type} (le : α → α → Bool)
    (htot : ∀ a b, le a b = true ∨ le b a = true)
    (htrans : ∀ a b c, le a b = true → le b c = true → le a c = true)
    (l : List α) :
    List.Pairwise (fun a b => le a b = true) (sortListBy le l) := by
  induction l with
  | nil => exact List.Pairwise.nil
  | cons x t ih => exact pairwise_insertSorted le htot htrans x _ ih

theorem di_order1_iff (d : Nat → Nat) (a b : Neighbor) :
    di_order1 d a b = true ↔
      (d b.node < d a.node ∨ (d a.node = d b.node ∧ a.distance < b.distance) ∨
        (d a.node = d b.node ∧ a.distance = b.distance ∧ b.path_count < a.path_count)) := by
  unfold di_order1
  constructor
  · intro h
    split_ifs at h with h1 h2 h3
    · exact Or.inl h1
    · exact Or.inr (Or.inl h2)
    · exact Or.inr (Or.inr h3)
  · intro h
    split_ifs with h1 h2 h3
    · rfl
    · rfl
    · rfl
    · rcases h with h | h | h
      · exact absurd h h1
      · exact absurd h h2
      · exact absurd h h3

theorem le1_di_le (d : Nat → Nat) (a b : Neighbor) (h : (! di_order1 d b a) = true) :
    d b.node ≤ d a.node := by
  by_contra hlt
  push_neg at hlt
  have hord : di_order1 d b a = true := (di_order1_iff d b a).mpr (Or.inl hlt)
  simp [hord] at h

theorem le1_total (d : Nat → Nat) (a b : Neighbor) :
    (! di_order1 d b a) = true ∨ (! di_order1 d a b) = true := by
  cases hb : di_order1 d b a with
  | false => left; simp [hb]
  | true =>
    right
    have hba := (di_order1_iff d b a).mp hb
    cases hab : di_order1 d a b with
    | false => simp [hab]
    | true =>
      have h2 := (di_order1_iff d a b).mp hab
      exfalso
      rcases hba with h | h | h <;> rcases h2 with h' | h' | h' <;> omega

theorem le1_trans (d : Nat → Nat) (a b c : Neighbor)
    (hab : (! di_order1 d b a) = true) (hbc : (! di_order1 d c b) = true) :
    (! di_order1 d c a) = true := by
  cases hca : di_order1 d c a with
  | false => simp [hca]
  | true =>
    exfalso
    have h1 := (di_order1_iff d c a).mp hca
    have h2 : ¬ (d a.node < d b.node ∨ (d b.node = d a.node ∧ b.distance < a.distance) ∨
        (d b.node = d a.node ∧ b.distance = a.distance ∧ a.path_count < b.path_count)) := by
      intro hc
      have hc' := (di_order1_iff d b a).mpr hc
      simp [hc'] at hab
    have h3 : ¬ (d b.node < d c.node ∨ (d c.node = d b.node ∧ c.distance < b.distance) ∨
        (d c.node = d b.node ∧ c.distance = b.distance ∧ b.path_count < c.path_count)) := by
      intro hc
      have hc' := (di_order1_iff d c b).mpr hc
      simp [hc'] at hbc
    rcases h1 with h | h | h <;> omega

theorem pairwise_sort_di_le (d : Nat → Nat) (l : List Neighbor) :
    List.Pairwise (fun a b => d b.node ≤ d a.node)
      (sortListBy (fun a b => ! di_order1 d b a) l) := by
  have h := pairwise_sortListBy (fun a b => ! di_order1 d b a)
    (fun a b => le1_total d a b) (fun a b c => le1_trans d a b c) l
  exact h.imp (fun hab => le1_di_le d _ _ hab)

theorem dedupByNodeGo_sub : ∀ (l : List Neighbor) (last : Neighbor),
    ∀ y ∈ dedupByNodeGo last l, y ∈ l := by
  intro l
  induction l with
  | nil => intro last y hy; simp [dedupByNodeGo] at hy
  | cons z t ih =>
    intro last y hy
    rw [dedupByNodeGo] at hy
    by_cases hz : z.node = last.node
    · rw [if_pos hz] at hy
      exact List.mem_cons_of_mem z (ih last y hy)
    · rw [if_neg hz] at hy
      rcases List.mem_cons.mp hy with rfl | hy
      · exact List.mem_cons_self y t
      · exact List.mem_cons_of_mem z (ih z y hy)

theorem dedupByNode_sub (l : List Neighbor) : ∀ y ∈ dedupByNode l, y ∈ l := by
  cases l with
  | nil => intro y hy; simp [dedupByNode] at hy
  | cons x t =>
    intro y hy
    rw [dedupByNode] at hy
    rcases List.mem_cons.mp hy with rfl | hy
    · exact List.mem_cons_self y t
    · exact List.mem_cons_of_mem x (dedupByNodeGo_sub t x y hy)

theorem dedupByNodeGo_strict (d : Nat → Nat) :
    ∀ (l : List Neighbor) (last : Neighbor),
      List.Pairwise (fun a b => d b.node ≤ d a.node) (last :: l) →
      (∀ a ∈ last :: l, ∀ b ∈ last :: l, d a.node = d b.node → a.node = b.node) →
      (∀ y ∈ dedupByNodeGo last l, d y.node < d last.node) ∧
      List.Pairwise (fun a b => d b.node < d a.node) (dedupByNodeGo last l) := by
  intro l
  induction l with
  | nil =>
    intro last _ _
    constructor
    · intro y hy; simp [dedupByNodeGo] at hy
    · rw [dedupByNodeGo]; exact List.Pairwise.nil
  | cons z t ih =>
    intro last hp hinj
    rcases List.pairwise_cons.mp hp with ⟨hlast, hzt⟩
    rcases List.pairwise_cons.mp hzt with ⟨hz_t, ht⟩
    by_cases hz : z.node = last.node
    · rw [dedupByNodeGo, if_pos hz]
      apply ih last
      · exact List.pairwise_cons.mpr ⟨fun w hw => hlast w (List.mem_cons_of_mem z hw), ht⟩
      · have lift : ∀ w, w ∈ last :: t → w ∈ last :: z :: t := by
          intro w hw
          rcases List.mem_cons.mp hw with rfl | hw
          · exact List.mem_cons_self _ _
          · exact List.mem_cons_of_mem _ (List.mem_cons_of_mem _ hw)
        intro a ha b hb heq
        exact hinj a (lift a ha) b (lift b hb) heq
    · rw [dedupByNodeGo, if_neg hz]
      have hsub : ∀ w, w ∈ z :: t → w ∈ last :: z :: t :=
        fun w hw => List.mem_cons_of_mem _ hw
      have ihz := ih z hzt (fun a ha b hb heq => hinj a (hsub a ha) b (hsub b hb) heq)
      have hzlt : d z.node < d last.node := by
        have hle := hlast z (List.mem_cons_self _ _)
        rcases Nat.lt_or_ge (d z.node) (d last.node) with h | h
        · exact h
        · exfalso
          have heq : d z.node = d last.node := Nat.le_antisymm hle h
          exact hz (hinj z (hsub z (List.mem_cons_self _ _)) last (List.mem_cons_self _ _) heq)
      constructor
      · intro y hy
        rcases List.mem_cons.mp hy with rfl | hy
        · exact hzlt
        · exact lt_trans (ihz.1 y hy) hzlt
      · exact List.pairwise_cons.mpr ⟨fun w hw => ihz.1 w hw, ihz.2⟩

theorem dedupByNode_strict (d : Nat → Nat) (l : List Neighbor)
    (hp : List.Pairwise (fun a b => d b.node ≤ d a.node) l)
    (hinj : ∀ a ∈ l, ∀ b ∈ l, d a.node = d b.node → a.node = b.node) :
    List.Pairwise (fun a b => d b.node < d a.node) (dedupByNode l) := by
  cases l with
  | nil => rw [dedupByNode]; exact List.Pairwise.nil
  | cons x t =>
    rw [dedupByNode]
    have h := dedupByNodeGo_strict d t x hp hinj
    exact List.pairwise_cons.mpr ⟨h.1, h.2⟩

theorem scInit_up (g : Graph) (ciDi : Nat → List Nat) (ciCl : Nat → Nat)
    (closest : Nat → Nat) : ∀ v, (scInit g ciDi ciCl closest).1.up v = [] := by
  unfold scInit
  refine foldl_induction _ _ _
    (fun acc : ScState × List Nat => ∀ v, acc.1.up v = []) (fun _ => rfl) ?_
  intro b x _ hb v
  dsimp only
  split_ifs with hc
  · exact hb v
  · exact hb v

theorem scInit_bu (g : Graph) (ciDi : Nat → List Nat) (ciCl : Nat → Nat)
    (closest : Nat → Nat) :
    ∀ v ∈ (scInit g ciDi ciCl closest).2, closest v = v ∧ v ∈ g.nodes := by
  unfold scInit
  refine foldl_induction _ _ _
    (fun acc : ScState × List Nat => ∀ v ∈ acc.2, closest v = v ∧ v ∈ g.nodes) ?_ ?_
  · intro v hv; simp at hv
  · intro b x hx hb v hv
    dsimp only at hv
    by_cases hc : closest x = x
    · rw [if_pos hc] at hv
      rcases List.mem_append.mp hv with hv | hv
      · exact hb v hv
      · rcases List.mem_singleton.mp hv with rfl
        exact ⟨hc, hx⟩
    · rw [if_neg hc] at hv
      exact hb v hv

theorem scInitEdges_inv (g : Graph) (closest : Nat → Nat) (d : Nat → Nat)
    (comp : Nat → Nat → Prop) (bottomUp : List Nat) (st : ScState)
    (hcl : ∀ v ∈ g.nodes, ∀ n ∈ (g.node_data v).neighbors, n.node ∈ g.nodes)
    (hcomp : ∀ v ∈ g.nodes, ∀ n ∈ (g.node_data v).neighbors,
      closest n.node = n.node → d n.node < d v → comp v n.node)
    (hbu : ∀ v ∈ bottomUp, v ∈ g.nodes)
    (h : ScUpInv g closest d comp st) :
    ScUpInv g closest d comp (scInitEdges g closest bottomUp st) := by
  unfold scInitEdges
  refine foldl_induction _ _ _ (ScUpInv g closest d comp) h ?_
  intro st1 node hnode hst1
  refine foldl_induction _ _ _ (ScUpInv g closest d comp) hst1 ?_
  intro st2 n hn hst2
  dsimp only
  split_ifs with hc
  · obtain ⟨hd2, hup2⟩ := hst2
    refine ⟨hd2, fun v m hm => ?_⟩
    simp only [fupd] at hm
    by_cases hv : v = node
    · subst hv
      rw [if_pos rfl] at hm
      rcases List.mem_append.mp hm with hm | hm
      · exact hup2 v m hm
      · rcases List.mem_singleton.mp hm with rfl
        have h2 := hc.2
        rw [hd2] at h2
        exact ⟨h2, hc.1, hcl v (hbu v hnode) n hn, hcomp v (hbu v hnode) n hn hc.1 h2⟩
    · rw [if_neg hv] at hm
      exact hup2 v m hm
  · exact hst2

theorem scPairInner_inv (g : Graph) (closest : Nat → Nat) (d : Nat → Nat)
    (comp : Nat → Nat → Prop) (x : Neighbor) (ys : List Neighbor) (st : ScState)
    (hys : ∀ y ∈ ys, d y.node < d x.node ∧ closest y.node = y.node ∧
      y.node ∈ g.nodes ∧ comp x.node y.node)
    (h : ScUpInv g closest d comp st) :
    ScUpInv g closest d comp (scPairInner x ys st) := by
  unfold scPairInner
  refine foldl_induction _ _ _ (ScUpInv g closest d comp) h ?_
  intro st2 y hy hst2
  obtain ⟨hd2, hup2⟩ := hst2
  dsimp only
  split_ifs with h1 h2
  · refine ⟨hd2, fun v m hm => ?_⟩
    simp only [fupd] at hm
    by_cases hv : v = x.node
    · subst hv
      rw [if_pos rfl] at hm
      rcases List.mem_append.mp hm with hm | hm
      · exact hup2 x.node m hm
      · rcases List.mem_singleton.mp hm with rfl
        exact hys y hy
    · rw [if_neg hv] at hm
      exact hup2 v m hm
  · refine ⟨hd2, fun v m hm => ?_⟩
    simp only [fupd] at hm
    by_cases hv : v = x.node
    · subst hv
      rw [if_pos rfl] at hm
      rcases List.mem_append.mp hm with hm | hm
      · exact hup2 x.node m hm
      · rcases List.mem_singleton.mp hm with rfl
        exact hys y hy
    · rw [if_neg hv] at hm
      exact hup2 v m hm
  · exact ⟨hd2, hup2⟩

theorem scPairLoop_inv (g : Graph) (closest : Nat → Nat) (d : Nat → Nat)
    (comp : Nat → Nat → Prop) (node : Nat)
    (hdown : ∀ v a b, a ∈ g.nodes → b ∈ g.nodes → closest a = a → closest b = b →
      comp v a → comp v b → d b < d a → comp a b) :
    ∀ (l : List Neighbor) (st : ScState),
      (∀ n ∈ l, closest n.node = n.node ∧ n.node ∈ g.nodes ∧ comp node n.node) →
      List.Pairwise (fun a b => d b.node < d a.node) l →
      ScUpInv g closest d comp st → ScUpInv g closest d comp (scPairLoop l st) := by
  intro l
  induction l with
  | nil => intro st _ _ h; exact h
  | cons x rest ih =>
    intro st hl hpw h
    rcases List.pairwise_cons.mp hpw with ⟨hx_rest, hrest⟩
    show ScUpInv g closest d comp (scPairLoop rest (scPairInner x rest st))
    refine ih (scPairInner x rest st)
      (fun n hn => hl n (List.mem_cons_of_mem x hn)) hrest ?_
    refine scPairInner_inv g closest d comp x rest st ?_ h
    intro y hy
    have hx := hl x (List.mem_cons_self x rest)
    have hy2 := hl y (List.mem_cons_of_mem x hy)
    exact ⟨hx_rest y hy, hy2.1, hy2.2.1,
      hdown node x.node y.node hx.2.1 hy2.2.1 hx.1 hy2.1 hx.2.2 hy2.2.2 (hx_rest y hy)⟩

theorem scUpInv_set_up (g : Graph) (closest : Nat → Nat) (d : Nat → Nat)
    (comp : Nat → Nat → Prop) (st : ScState) (node : Nat) (L : List Neighbor)
    (h : ScUpInv g closest d comp st)
    (hL : ∀ n ∈ L, d n.node < d node ∧ closest n.node = n.node ∧
      n.node ∈ g.nodes ∧ comp node n.node) :
    ScUpInv g closest d comp { st with up := fupd st.up node L } := by
  refine ⟨h.1, fun v m hm => ?_⟩
  simp only [fupd] at hm
  by_cases hv : v = node
  · rw [if_pos hv] at hm
    have hf := hL m hm
    refine ⟨?_, hf.2.1, hf.2.2.1, ?_⟩
    · rw [hv]
      exact hf.1
    · rw [hv]
      exact hf.2.2.2
  · rw [if_neg hv] at hm
    exact h.2 v m hm

theorem scProcessNode_inv (g : Graph) (closest : Nat → Nat) (d : Nat → Nat)
    (comp : Nat → Nat → Prop)
    (hdown : ∀ v a b, a ∈ g.nodes → b ∈ g.nodes → closest a = a → closest b = b →
      comp v a → comp v b → d b < d a → comp a b)
    (hinjc : ∀ v a b, a ∈ g.nodes → b ∈ g.nodes → closest a = a → closest b = b →
      comp v a → comp v b → d a = d b → a = b)
    (node : Nat) (st : ScState) (h : ScUpInv g closest d comp st) :
    ScUpInv g closest d comp (scProcessNode node st) := by
  obtain ⟨hd, hup⟩ := h
  subst hd
  have hmemL : ∀ n ∈ sortListBy (fun a b => ! di_order1 st.di b a) (st.up node),
      n ∈ st.up node :=
    fun n hn => (mem_sortListBy _ _ n).mp hn
  have hmem : ∀ n ∈ dedupByNode (sortListBy (fun a b => ! di_order1 st.di b a) (st.up node)),
      n ∈ st.up node :=
    fun n hn => hmemL n (dedupByNode_sub _ n hn)
  have hfacts : ∀ n ∈ dedupByNode (sortListBy (fun a b => ! di_order1 st.di b a) (st.up node)),
      st.di n.node < st.di node ∧ closest n.node = n.node ∧
      n.node ∈ g.nodes ∧ comp node n.node :=
    fun n hn => hup node n (hmem n hn)
  have hle : List.Pairwise (fun a b => st.di b.node ≤ st.di a.node)
      (sortListBy (fun a b => ! di_order1 st.di b a) (st.up node)) :=
    pairwise_sort_di_le st.di (st.up node)
  have hinj2 : ∀ a ∈ sortListBy (fun a b => ! di_order1 st.di b a) (st.up node),
      ∀ b ∈ sortListBy (fun a b => ! di_order1 st.di b a) (st.up node),
      st.di a.node = st.di b.node → a.node = b.node := by
    intro a ha b hb heq
    have fa := hup node a (hmemL a ha)
    have fb := hup node b (hmemL b hb)
    exact hinjc node a.node b.node fa.2.2.1 fb.2.2.1 fa.2.1 fb.2.1
      fa.2.2.2 fb.2.2.2 heq
  have hpw := dedupByNode_strict st.di _ hle hinj2
  have h1 := scUpInv_set_up g closest st.di comp st node
      (dedupByNode (sortListBy (fun a b => ! di_order1 st.di b a) (st.up node)))
      ⟨rfl, hup⟩ hfacts
  have h2 := scPairLoop_inv g closest st.di comp node hdown
      (dedupByNode (sortListBy (fun a b => ! di_order1 st.di b a) (st.up node))) _
      (fun n hn => (hfacts n hn).2) hpw h1
  unfold scProcessNode
  dsimp only
  refine foldl_induction _ _ _ (ScUpInv g closest st.di comp) h2 ?_
  intro b upn _ hb
  exact hb

theorem scPhase2Node_shape (node : Nat) (st : ScState) :
    (scPhase2Node node st).di = st.di ∧ (scPhase2Node node st).up = st.up := by
  unfold scPhase2Node
  dsimp only
  refine foldl_induction _ _ _
    (fun s2 : ScState => s2.di = st.di ∧ s2.up = st.up) ⟨rfl, rfl⟩ ?_
  intro b n _ hb
  dsimp only
  refine foldl_induction _ _ _
    (fun s2 : ScState => s2.di = st.di ∧ s2.up = st.up) hb ?_
  intro b2 anc _ hb2
  dsimp only
  split_ifs with hlt heq
  · exact hb2
  · exact hb2
  · exact hb2

theorem create_sc_graph_upstrict (g : Graph) (ciDi : Nat → List Nat) (ciCl : Nat → Nat)
    (closest : Nat → Nat) (comp : Nat → Nat → Prop)
    (hcl : ∀ v ∈ g.nodes, ∀ n ∈ (g.node_data v).neighbors, n.node ∈ g.nodes)
    (hcomp : ∀ v ∈ g.nodes, ∀ n ∈ (g.node_data v).neighbors, closest n.node = n.node →
      scDi g ciDi ciCl closest n.node < scDi g ciDi ciCl closest v → comp v n.node)
    (hdown : ∀ v a b, a ∈ g.nodes → b ∈ g.nodes → closest a = a → closest b = b →
      comp v a → comp v b →
      scDi g ciDi ciCl closest b < scDi g ciDi ciCl closest a → comp a b)
    (hinjc : ∀ v a b, a ∈ g.nodes → b ∈ g.nodes → closest a = a → closest b = b →
      comp v a → comp v b →
      scDi g ciDi ciCl closest a = scDi g ciDi ciCl closest b → a = b) :
    UpStrict (create_sc_graph g ciDi ciCl closest).toCH := by
  have h0 : ScUpInv g closest (scDi g ciDi ciCl closest) comp
      (scInit g ciDi ciCl closest).1 := by
    refine ⟨rfl, fun v n hn => ?_⟩
    rw [scInit_up g ciDi ciCl closest v] at hn
    exact absurd hn (List.not_mem_nil n)
  have h1 : ScUpInv g closest (scDi g ciDi ciCl closest) comp
      (scInitEdges g closest (scInit g ciDi ciCl closest).2 (scInit g ciDi ciCl closest).1) :=
    scInitEdges_inv g closest _ comp _ _ hcl hcomp
      (fun v hv => (scInit_bu g ciDi ciCl closest v hv).2) h0
  have h2 : ScUpInv g closest (scDi g ciDi ciCl closest) comp
      ((sortListBy (fun a b => ! di_order (scInitEdges g closest (scInit g ciDi ciCl closest).2 (scInit g ciDi ciCl closest).1).di b a) (scInit g ciDi ciCl closest).2).foldl
        (fun st node => scProcessNode node st)
        (scInitEdges g closest (scInit g ciDi ciCl closest).2 (scInit g ciDi ciCl closest).1)) :=
    foldl_induction _ _ _ (ScUpInv g closest (scDi g ciDi ciCl closest) comp) h1
      (fun st node _ hst => scProcessNode_inv g closest _ comp hdown hinjc node st hst)
  have htrans : ∀ (s : ScState), ScUpInv g closest (scDi g ciDi ciCl closest) comp s →
      ∀ nd, ScUpInv g closest (scDi g ciDi ciCl closest) comp (scPhase2Node nd s) := by
    intro s hs nd
    obtain ⟨hsh1, hsh2⟩ := scPhase2Node_shape nd s
    exact ⟨hsh1.trans hs.1, fun v n hn => hs.2 v n (hsh2 ▸ hn)⟩
  have h3 : ScUpInv g closest (scDi g ciDi ciCl closest) comp
      (create_sc_graph g ciDi ciCl closest) :=
    foldl_induction _ _ _ (ScUpInv g closest (scDi g ciDi ciCl closest) comp) h2
      (fun b nd _ hb => htrans b hb nd)
  intro v nd hnd
  simp only [upNodes, ScState.toCH] at hnd
  rcases List.mem_map.mp hnd with ⟨n, hn, hnode⟩
  have hf := h3.2 v n hn
  show (create_sc_graph g ciDi ciCl closest).di nd < (create_sc_graph g ciDi ciCl closest).di v
  rw [h3.1, ← hnode]
  exact hf.1

theorem upstrict_of_shape (ch ch' : CH) (hdi : ch'.di = ch.di)
    (hup : ∀ v, upNodes ch' v = upNodes ch v) (h : UpStrict ch) : UpStrict ch' := by
  intro v nd hnd
  rw [hdi]
  exact h v nd (by rw [← hup v]; exact hnd)

theorem upstrict_transGen_lt (ch : CH) (h : UpStrict ch) (a b : Nat)
    (htg : Relation.TransGen (fun x y : Nat => y ∈ upNodes ch x) a b) :
    ch.di b < ch.di a := by
  induction htg with
  | single hs => exact h _ _ hs
  | tail _ hs ih => exact lt_trans (h _ _ hs) ih

/-- C6: the edge-direction invariant of the shortcut DAG.  (i) After
`create_sc_graph` — for a graph whose neighbor lists stay inside
`nodes`, and any root-path comparability relation `comp` under which
graph edges to core vertices of smaller `dist_index` point to
comparable vertices, comparability propagates downward along decreasing
`dist_index` (of two vertices comparable to a common vertex, the one
with smaller `dist_index` lies on the other's root path), and
`dist_index` is injective on core vertices comparable to a common
vertex (root-path cuts occupy disjoint index ranges; sibling cuts may
reuse values but are never comparable) — every up-neighbor entry of
every vertex has a strictly smaller `dist_index`.  (ii, iii) `GS_Dec`
and `GS_Inc` preserve the invariant: they modify entry weights and path
counts but never change the up-neighbor node sets or `dist_index`.
(iv, v) `DCL_Dec` and `DCL_Inc` return exactly the `GS_Dec`/`GS_Inc`
hierarchy, so they preserve it as well.  (vi) Under the invariant the
up-neighbor relation admits no cycle. -/
theorem claim_C6 :
    (∀ (g : Graph) (ciDi : Nat → List Nat) (ciCl : Nat → Nat) (closest : Nat → Nat)
      (comp : Nat → Nat → Prop),
      (∀ v ∈ g.nodes, ∀ n ∈ (g.node_data v).neighbors, n.node ∈ g.nodes) →
      (∀ v ∈ g.nodes, ∀ n ∈ (g.node_data v).neighbors, closest n.node = n.node →
        scDi g ciDi ciCl closest n.node < scDi g ciDi ciCl closest v → comp v n.node) →
      (∀ v a b, a ∈ g.nodes → b ∈ g.nodes → closest a = a → closest b = b →
        comp v a → comp v b →
        scDi g ciDi ciCl closest b < scDi g ciDi ciCl closest a → comp a b) →
      (∀ v a b, a ∈ g.nodes → b ∈ g.nodes → closest a = a → closest b = b →
        comp v a → comp v b →
        scDi g ciDi ciCl closest a = scDi g ciDi ciCl closest b → a = b) →
      UpStrict (create_sc_graph g ciDi ciCl closest).toCH) ∧
    (∀ (fuel : Nat) (ch : CH) (updates : List Upd),
      UpStrict ch → UpStrict (GS_Dec fuel ch updates).1) ∧
    (∀ (g : Graph) (fuel : Nat) (ch : CH) (updates : List Upd),
      UpStrict ch → UpStrict (GS_Inc g fuel ch updates).1) ∧
    (∀ (fuel : Nat) (ch : CH) (ci : ContractionIndex) (updates : List Upd),
      (DCL_Dec fuel ch ci updates).1 = (GS_Dec fuel ch updates).1) ∧
    (∀ (g : Graph) (fuel : Nat) (ch : CH) (ci : ContractionIndex) (updates : List Upd),
      (DCL_Inc g fuel ch ci updates).1 = (GS_Inc g fuel ch updates).1) ∧
    (∀ ch : CH, UpStrict ch →
      ∀ v, ¬ Relation.TransGen (fun a b => b ∈ upNodes ch a) v v) := by
  refine ⟨create_sc_graph_upstrict, ?_, ?_, ?_, ?_, ?_⟩
  · intro fuel ch updates h
    obtain ⟨hd, _, hu⟩ := GS_Dec_shape fuel ch updates
    exact upstrict_of_shape ch _ hd hu h
  · intro g fuel ch updates h
    obtain ⟨hd, _, hu⟩ := GS_Inc_shape g fuel ch updates
    exact upstrict_of_shape ch _ hd hu h
  · intro fuel ch ci updates
    rfl
  · intro g fuel ch ci updates
    rfl
  · intro ch h v htg
    exact absurd (upstrict_transGen_lt ch h v v htg) (lt_irrefl _)

/-- C6 (witness): on the concrete two-vertex graph `exG6`, with the
total comparability relation, the closure and comparable-injectivity
hypotheses hold, and the constructed DAG satisfies the edge-direction
invariant. -/
theorem claim_C6_witness :
    (∀ v ∈ exG6.nodes, ∀ n ∈ (exG6.node_data v).neighbors, n.node ∈ exG6.nodes) ∧
    (∀ a ∈ exG6.nodes, ∀ b ∈ exG6.nodes,
      scDi exG6 exCiDi6 exCiCl6 exClosest6 a = scDi exG6 exCiDi6 exCiCl6 exClosest6 b →
      a = b) ∧
    UpStrict (create_sc_graph exG6 exCiDi6 exCiCl6 exClosest6).toCH := by
  refine ⟨by decide, by decide, ?_⟩
  refine claim_C6.1 exG6 exCiDi6 exCiCl6 exClosest6 (fun _ _ => True)
    (by decide) ?_ ?_ ?_
  · intro v hv n hn hc hlt
    trivial
  · intro v a b ha hb hca hcb h1 h2 hlt
    trivial
  · intro v a b ha hb hca hcb h1 h2 heq
    have key : ∀ a ∈ exG6.nodes, ∀ b ∈ exG6.nodes,
        scDi exG6 exCiDi6 exCiCl6 exClosest6 a = scDi exG6 exCiDi6 exCiCl6 exClosest6 b →
        a = b := by decide
    exact key a ha b hb heq

end RoadNetwork
